import Mathlib

/-!
# Verification of `run-nextflow-tests/utils.py`

A shallow embedding of the utility module of the `tool-Nextflow-action`
repository, together with theorems checking the natural-language
specification against it.

Modelling conventions:
* Python `str` is modelled as `List Char`; Python values that can occur in
  the parsed configuration (strings, booleans, lists, dicts, `None`) are
  modelled by the mutually inductive types `PyVal`/`PyList`/`PyDict`.
  Python dicts are modelled as insertion-ordered key/value sequences with
  unique keys (which is how CPython dicts behave observationally).
* Python exceptions are modelled with `Except PyErr`; the constructors of
  `PyErr` name the exception class raised by the source code
  (`AssertionError`, `IndexError`, `TypeError`, `ValueError`).
* The mutually recursive parser (`parse_value` / `_parse_list_value` /
  `_parse_dict_value`) is defined with a structural fuel parameter so that
  all definitions compute by kernel reduction; the wrapper functions supply
  fuel that provably suffices (each nested `parse_value` call receives a
  strictly shorter string).  `PyErr.fuelExhausted` is the artificial result
  of running out of fuel; it is unreachable from the wrappers.
* The regular expressions of the source (`ESCAPE_RE`, `CLOSURE_RE`,
  `POINTER_RE`, `param_re`, the `manifest.version` search and `DATE_RE`)
  are embedded by direct recursive matchers implementing the semantics of
  the concrete pattern, including laziness/greediness and the
  non-overlapping left-to-right behaviour of `re.sub`.
-/

set_option linter.unusedVariables false

/-- Exception kinds raised by the embedded code.  `fuelExhausted` is an
artifact of the fuel-based embedding and is unreachable from the wrapper
functions (they always supply sufficient fuel). -/
inductive PyErr where
  | assertionError
  | indexError
  | typeError
  | valueError (msg : List Char)
  | fuelExhausted
deriving DecidableEq, Repr

mutual

/-- Python values occurring in parsed Nextflow configurations: strings,
booleans, lists, dicts (insertion-ordered sequences of key/value entries,
which is how CPython dicts behave observationally) and `None`.  `PyList`
and `PyDict` are mutually inductive copies of the list type so that all
recursions over values are structural (and therefore compute by kernel
reduction). -/
inductive PyVal where
  | str (s : List Char)
  | bool (b : Bool)
  | none
  | list (xs : PyList)
  | dict (d : PyDict)
deriving Repr, DecidableEq

inductive PyList where
  | nil
  | cons (x : PyVal) (xs : PyList)
deriving Repr, DecidableEq

inductive PyDict where
  | nil
  | cons (k v : PyVal) (d : PyDict)
deriving Repr, DecidableEq

end

/-- Build a `PyList` from a Lean list of values. -/
def PyList.ofList : List PyVal → PyList
  | [] => .nil
  | x :: xs => .cons x (PyList.ofList xs)

/-- Build a `PyDict` from a Lean list of entries. -/
def PyDict.ofPairs : List (PyVal × PyVal) → PyDict
  | [] => .nil
  | p :: ps => .cons p.1 p.2 (PyDict.ofPairs ps)

/-- Number of entries of a dict (`len`). -/
def PyDict.size : PyDict → Nat
  | .nil => 0
  | .cons _ _ d => 1 + PyDict.size d

/-- Number of elements of a list (`len`). -/
def PyList.size : PyList → Nat
  | .nil => 0
  | .cons _ xs => 1 + PyList.size xs

/-- Python whitespace characters stripped by `str.strip()` and rejected by
the regex class `\S`. -/
def isPySpace (c : Char) : Bool :=
  c = ' ' || c = '\t' || c = '\n' || c = '\r' || c = '\x0b' || c = '\x0c'

/-- `str.strip()`: remove leading and trailing whitespace. -/
def pyStrip (s : List Char) : List Char :=
  ((s.dropWhile isPySpace).reverse.dropWhile isPySpace).reverse

/-- `str.splitlines()` (with `\n` as the line terminator, matching the
`re.MULTILINE` anchors used by the source): no trailing empty line is
produced for a terminating newline. -/
def splitLines : List Char → List (List Char)
  | [] => []
  | c :: rest =>
    if c = '\n' then [] :: splitLines rest
    else
      match splitLines rest with
      | [] => [[c]]
      | l :: ls => (c :: l) :: ls

/-- `ESCAPE_RE = re.compile(r"([^\\])\\([ =:])")` applied via
`ESCAPE_RE.sub(r"\1\2", s)`: scanning left to right, a backslash that is
preceded by a non-backslash character and followed by a space, `=` or `:`
is deleted; the match consumes all three characters, and scanning resumes
after them. -/
def escapeSub : List Char → List Char
  | [] => []
  | [a] => [a]
  | [a, b] => [a, b]
  | a :: b :: c :: rest =>
    if b = '\\' ∧ a ≠ '\\' ∧ (c = ' ' ∨ c = '=' ∨ c = ':') then
      a :: c :: escapeSub rest
    else
      a :: escapeSub (b :: c :: rest)

/-- Word characters for the regex class `\w` (ASCII letters, digits and
underscore). -/
def isWordChar (c : Char) : Bool := c.isAlphanum || c = '_'

/-- Matching helper for `CLOSURE_RE = re.compile(r"^Script\S+_run_closure")`:
after the literal `Script`, at least one non-whitespace character must be
consumed before the literal `_run_closure` (backtracking = existence of a
split point). -/
def closureAux : List Char → Bool
  | [] => false
  | c :: rest =>
    if isPySpace c then false
    else "_run_closure".data.isPrefixOf rest || closureAux rest

/-- `CLOSURE_RE.match value_str`: anchored at the start of the string. -/
def closureMatch (s : List Char) : Bool :=
  match s with
  | 'S' :: 'c' :: 'r' :: 'i' :: 'p' :: 't' :: rest => closureAux rest
  | _ => false

/-- Helper for `POINTER_RE = re.compile(r"^(\[?Ljava\..*;@)(\w+)$")`: given
the text after the `Ljava.` prefix, find the split `mid ++ ";@" ++ w` with
`mid` free of newlines (regex `.`) and `w` a non-empty word-character run
reaching the end of the string.  Greedy `.*` prefers the longest `mid`, so
the recursive call is tried before splitting at the current position.
Returns the replacement tail `mid ++ ";@dec0ded"` used by
`POINTER_RE.sub(r"\1dec0ded", s)`. -/
def pointerFallback (c : Char) (rest : List Char) : Option (List Char) :=
  if c = ';' then
    match rest with
    | [] => Option.none
    | r :: w =>
      if r = '@' then
        if !w.isEmpty && w.all isWordChar then
          some (';' :: '@' :: "dec0ded".data)
        else Option.none
      else Option.none
  else Option.none

/-- See `pointerFallback` above for the split-here case; extending `mid`
is preferred (`Option.or` tries the recursive call first), implementing
the greedy `.*`. -/
def pointerSubAfter : List Char → Option (List Char)
  | [] => Option.none
  | c :: rest =>
    if c = '\n' then Option.none
    else ((pointerSubAfter rest).map (fun out => c :: out)).or (pointerFallback c rest)

/-- `POINTER_RE.sub(r"\1dec0ded", s)` when `POINTER_RE.match s` succeeds
(`none` when the pattern does not match).  The leading `[` is optional but,
being followed by the literal `L`, it is consumed exactly when present. -/
def pointerSub (s : List Char) : Option (List Char) :=
  match s with
  | '[' :: 'L' :: 'j' :: 'a' :: 'v' :: 'a' :: '.' :: rest =>
    (pointerSubAfter rest).map
      (fun out => '[' :: 'L' :: 'j' :: 'a' :: 'v' :: 'a' :: '.' :: out)
  | 'L' :: 'j' :: 'a' :: 'v' :: 'a' :: '.' :: rest =>
    (pointerSubAfter rest).map
      (fun out => 'L' :: 'j' :: 'a' :: 'v' :: 'a' :: '.' :: out)
  | _ => Option.none

/-- `token.split("\\=", maxsplit=1)`: split at the first occurrence of the
two-character separator `\=`; `none` when the separator is absent (in which
case the Python tuple unpacking raises `ValueError`). -/
def splitEscEq : List Char → Option (List Char × List Char)
  | [] => Option.none
  | [_] => Option.none
  | c :: c2 :: rest =>
    if c = '\\' ∧ c2 = '=' then some ([], rest)
    else (splitEscEq (c2 :: rest)).map (fun p => (c :: p.1, p.2))

/-- `str.split(", ")`: split on every (non-overlapping, left-to-right)
occurrence of the two-character separator. -/
def splitCS : List Char → List (List Char)
  | [] => [[]]
  | [c] => [[c]]
  | c :: c2 :: rest =>
    if c = ',' ∧ c2 = ' ' then [] :: splitCS rest
    else
      match splitCS (c2 :: rest) with
      | [] => [[c]]
      | t :: ts => (c :: t) :: ts

/-- Matching walk for
`param_re = re.compile(r"^(?P<key>\S+?[^\\])=(?P<value>.*)$")`.
The lazy `\S+?` tries the shortest prefix first: with `pre` the (reversed)
non-whitespace characters consumed so far, the candidate key is
`pre.reverse ++ [b]` where `b` (the `[^\\]` character, which may be any
non-backslash character) is followed by the literal `=`; if the candidate
fails, one more non-whitespace character is consumed. -/
def pmAux (pre : List Char) : List Char → Option (List Char × List Char)
  | [] => Option.none
  | [b] =>
    if isPySpace b then Option.none else pmAux (b :: pre) []
  | b :: c2 :: rest =>
    if c2 = '=' ∧ pre ≠ [] ∧ b ≠ '\\' then
      some (pre.reverse ++ [b], rest)
    else if isPySpace b then Option.none
    else pmAux (b :: pre) (c2 :: rest)

/-- `param_re.match(line)`: returns the `key`/`value` groups. -/
def paramMatch (line : List Char) : Option (List Char × List Char) :=
  pmAux [] line

/-- One line of the `re.search(r"^manifest.version=(.*)$", …, re.MULTILINE)`
scan: the line must start with the literal `manifest`, one arbitrary
non-newline character (the unescaped `.` of the pattern), then
`version=`; the captured group is the rest of the line. -/
def mvLine (l : List Char) : Option (List Char) :=
  match l with
  | 'm' :: 'a' :: 'n' :: 'i' :: 'f' :: 'e' :: 's' :: 't' :: c :: rest =>
    if c ≠ '\n' ∧ "version=".data.isPrefixOf rest then
      some (rest.drop 8)
    else Option.none
  | _ => Option.none

/-- The whole `re.search` over the multi-line input: the first line (in
order) matching the pattern wins. -/
def manifestVersionOf (config_str : List Char) : Option (List Char) :=
  (splitLines config_str).findSome? mvLine

/-- Try to match `DATE_RE = re.compile(r"\d{8}T\d{6}Z")` at the head of the
string, returning the remainder after the match. -/
def dateTry (s : List Char) : Option (List Char) :=
  let p1 := s.take 8
  if p1.length = 8 && p1.all Char.isDigit then
    match s.drop 8 with
    | 'T' :: r2 =>
      let p2 := r2.take 6
      if p2.length = 6 && p2.all Char.isDigit then
        match r2.drop 6 with
        | 'Z' :: r3 => some r3
        | _ => Option.none
      else Option.none
    | _ => Option.none
  else Option.none

/-- Fueled worker for `DATE_RE.sub("19970704T165655Z", s)`: every match
consumes at least one character, so fuel `s.length` suffices. -/
def dateSubF : Nat → List Char → List Char
  | 0, s => s
  | _ + 1, [] => []
  | f + 1, c :: rest =>
    match dateTry (c :: rest) with
    | some r3 => "19970704T165655Z".data ++ dateSubF f r3
    | Option.none => c :: dateSubF f rest

/-- `DATE_RE.sub("19970704T165655Z", s)`: mask timestamps with Pathfinder's
landing. -/
def dateSub (s : List Char) : List Char := dateSubF s.length s

/-- Fueled worker for `str.replace(pat, repl)` (all non-overlapping
occurrences, left to right).  Only called with a non-empty pattern — the
source guards the call with the truthiness test `and version_str`. -/
def strReplaceF : Nat → List Char → List Char → List Char → List Char
  | 0, s, _, _ => s
  | _ + 1, [], _, _ => []
  | f + 1, c :: rest, pat, repl =>
    if pat.isPrefixOf (c :: rest) ∧ pat ≠ [] then
      repl ++ strReplaceF f ((c :: rest).drop pat.length) pat repl
    else
      c :: strReplaceF f rest pat repl

/-- `value.replace(version_str, "VER.SI.ON")` and friends. -/
def strReplace (s pat repl : List Char) : List Char :=
  strReplaceF s.length s pat repl

/-! ## Python dict primitives -/

/-- Equality of hashable Python values (strings, booleans, `None`), as used
for dict key lookup.  Unhashable values (lists, dicts) never become keys:
`dictGoF` raises `TypeError` before inserting them. -/
def keyEq : PyVal → PyVal → Bool
  | .str a, .str b => a = b
  | .bool a, .bool b => a = b
  | .none, .none => true
  | _, _ => false

/-- Python hashability of the values `parse_value` can produce. -/
def isHashable : PyVal → Bool
  | .list _ => false
  | .dict _ => false
  | _ => true

/-- Dict lookup (`d[k]` and `k in d`). -/
def dictFind (k : PyVal) : PyDict → Option PyVal
  | .nil => Option.none
  | .cons k0 v0 d => if keyEq k0 k then some v0 else dictFind k d

/-- Dict assignment `d[k] = v`: overwrite in place when the key is present
(keeping the original key and its position), append otherwise — CPython's
insertion-order behaviour. -/
def dictSet : PyDict → PyVal → PyVal → PyDict
  | .nil, k, v => .cons k v .nil
  | .cons k0 v0 d, k, v =>
    if keyEq k0 k then .cons k0 v d else .cons k0 v0 (dictSet d k v)

/-! ## The value parser

`parse_value`, `_parse_list_value` and `_parse_dict_value` are mutually
recursive on strictly shorter strings.  The loops are parametrised by the
element parser `pv`, and `parseF` ties the knot with a structural fuel
argument; the wrappers supply fuel `length + 1`, which always suffices. -/

/-- The scanning loop of `_parse_list_value` over `list_str`, carried out
with an explicit current-element accumulator `cur` instead of the source's
`first_index`/`index` pair: `cur` always equals
`list_str[first_index:current position]`, so the source's final test
`index > first_index` (with `index` the last index of `list_str`) is
exactly `cur.length > 1`.
* `{` pushes `}`, `(` pushes `)` (note: `[`/`]` are *not* tracked);
* a closing `}`/`)` pops: `stack[-1]` on an empty stack is an
  `IndexError`, `assert stack[-1] == character` fails on a mismatch;
* a `,` with empty stack emits `parse_value cur` (the comma is dropped);
* after the loop, `assert not stack`, and the final element is parsed
  only when `index > first_index`, i.e. `cur.length > 1`. -/
def listGoF (pv : List Char → Except PyErr PyVal) :
    List Char → List Char → List PyVal → List Char → Except PyErr (List PyVal)
  | stack, cur, acc, [] =>
    match stack with
    | _ :: _ => .error .assertionError
    | [] =>
      if cur.length > 1 then
        match pv cur with
        | .error e => .error e
        | .ok v => .ok (acc ++ [v])
      else .ok acc
  | stack, cur, acc, c :: rest =>
    if c = '{' then listGoF pv ('}' :: stack) (cur ++ [c]) acc rest
    else if c = '(' then listGoF pv (')' :: stack) (cur ++ [c]) acc rest
    else if c = '}' ∨ c = ')' then
      match stack with
      | [] => .error .indexError
      | t :: ts =>
        if t = c then listGoF pv ts (cur ++ [c]) acc rest
        else .error .assertionError
    else if c = ',' ∧ stack = [] then
      match pv cur with
      | .error e => .error e
      | .ok v => listGoF pv [] [] (acc ++ [v]) rest
    else listGoF pv stack (cur ++ [c]) acc rest

/-- `_parse_list_value` with an explicit element parser: assert the `[`…`]`
delimiters, then run the scanning loop on `value_str[1:-1]`. -/
def listValueF (pv : List Char → Except PyErr PyVal) (s : List Char) :
    Except PyErr PyVal :=
  match s.head? with
  | Option.none => .error .indexError
  | some c =>
    if c ≠ '[' then .error .assertionError
    else if s.getLast? ≠ some ']' then .error .assertionError
    else
      match listGoF pv [] [] [] ((s.drop 1).dropLast) with
      | .error e => .error e
      | .ok vs => .ok (.list (PyList.ofList vs))

/-- The token loop of `_parse_dict_value`: each token of the `", "` split
is split on the first `\=` (`ValueError` if absent — the message is
CPython's unpacking complaint), the value side and then the key side are
parsed (Python evaluates the right-hand side of an assignment first), and
`value[key] = value` inserts — a `TypeError` if the key is unhashable. -/
def dictGoF (pv : List Char → Except PyErr PyVal) :
    List (List Char) → PyDict → Except PyErr PyDict
  | [], d => .ok d
  | t :: ts, d =>
    match splitEscEq t with
    | Option.none =>
      .error (.valueError "not enough values to unpack (expected 2, got 1)".data)
    | some (tk, tv) =>
      match pv tv with
      | .error e => .error e
      | .ok vv =>
        match pv tk with
        | .error e => .error e
        | .ok kv =>
          if isHashable kv then dictGoF pv ts (dictSet d kv vv)
          else .error .typeError

/-- `_parse_dict_value` with an explicit element parser: assert the
`{`…`}` delimiters, split the inner text on `", "` and run the token
loop. -/
def dictValueF (pv : List Char → Except PyErr PyVal) (s : List Char) :
    Except PyErr PyVal :=
  match s.head? with
  | Option.none => .error .indexError
  | some c =>
    if c ≠ '{' then .error .assertionError
    else if s.getLast? ≠ some '}' then .error .assertionError
    else
      match dictGoF pv (splitCS ((s.drop 1).dropLast)) .nil with
      | .error e => .error e
      | .ok d => .ok (.dict d)

/-- One unfolding of `parse_value`, with `pv` standing for the recursive
occurrences.  The branch order follows the source: the closure mask, the
memory-address mask, list, dict, the boolean literals, and finally the
unescaped and stripped scalar. -/
def parseStep (pv : List Char → Except PyErr PyVal) (s : List Char) :
    Except PyErr PyVal :=
  if closureMatch s then .ok (.str "closure()".data)
  else
    match pointerSub s with
    | some masked => .ok (.str masked)
    | Option.none =>
      if s.head? = some '[' ∧ s.getLast? = some ']' then listValueF pv s
      else if s.head? = some '{' ∧ s.getLast? = some '}' then dictValueF pv s
      else if s = "true".data then .ok (.bool true)
      else if s = "false".data then .ok (.bool false)
      else .ok (.str (escapeSub (pyStrip s)))

/-- Fuel-indexed `parse_value`.  Every string handed to a recursive call is
at least two characters shorter than the current one (the surrounding
brackets are stripped), so fuel `s.length + 1` suffices. -/
def parseF : Nat → List Char → Except PyErr PyVal
  | 0, _ => .error .fuelExhausted
  | f + 1, s => parseStep (parseF f) s

/-- `parse_value` from `utils.py`. -/
def parse_value (s : List Char) : Except PyErr PyVal :=
  parseF (s.length + 1) s

/-- `_parse_list_value` from `utils.py`. -/
def listValue (s : List Char) : Except PyErr PyVal :=
  listValueF parse_value s

/-- `_parse_dict_value` from `utils.py`. -/
def dictValue (s : List Char) : Except PyErr PyVal :=
  dictValueF parse_value s

/-! ## Pure bracket scan and top-level split

Specification-side descriptions of the `_parse_list_value` loop: the
bracket scan computes the fate of the nesting stack over a list body, and
the top-level split computes the comma-separated element tokens, both
without running any element parser. -/

/-- Outcome of scanning a list body: a closing bracket popped an empty
stack, a closing bracket mismatched the expected one, or the scan ran to
the end of the token leaving `stack`. -/
inductive ScanOut where
  | emptyPop
  | mismatch
  | done (stack : List Char)
deriving DecidableEq, Repr

/-- The pure bracket scan of a list body, mirroring the stack transitions
of `_parse_list_value` (only `{`/`(` push and `}`/`)` pop; `[`/`]` are not
tracked). -/
def bracketScan : List Char → List Char → ScanOut
  | stack, [] => .done stack
  | stack, c :: rest =>
    if c = '{' then bracketScan ('}' :: stack) rest
    else if c = '(' then bracketScan (')' :: stack) rest
    else if c = '}' ∨ c = ')' then
      match stack with
      | [] => .emptyPop
      | t :: ts => if t = c then bracketScan ts rest else .mismatch
    else bracketScan stack rest

/-- The top-level comma split of a list body: same stack transitions as
the scan, but collecting the element tokens; each top-level `,` ends the
current element (the comma itself is dropped), and the trailing text is
the final element.  Stack faults are ignored here (the parser has already
failed at such a point). -/
def topSplitGo : List Char → List Char → List Char → List (List Char)
  | _, cur, [] => [cur]
  | stack, cur, c :: rest =>
    if c = '{' then topSplitGo ('}' :: stack) (cur ++ [c]) rest
    else if c = '(' then topSplitGo (')' :: stack) (cur ++ [c]) rest
    else if c = '}' ∨ c = ')' then
      match stack with
      | [] => topSplitGo [] (cur ++ [c]) rest
      | t :: ts =>
        if t = c then topSplitGo ts (cur ++ [c]) rest
        else topSplitGo (t :: ts) (cur ++ [c]) rest
    else if c = ',' ∧ stack = [] then cur :: topSplitGo [] [] rest
    else topSplitGo stack (cur ++ [c]) rest

/-- The top-level element tokens of a list body. -/
def topElems (inner : List Char) : List (List Char) := topSplitGo [] [] inner

/-- Parse every token of a list with `f`, stopping at the first error. -/
def exMapM (f : List Char → Except PyErr PyVal) :
    List (List Char) → Except PyErr (List PyVal)
  | [] => .ok []
  | x :: xs =>
    match f x with
    | .error e => .error e
    | .ok v =>
      match exMapM f xs with
      | .error e => .error e
      | .ok vs => .ok (v :: vs)

/-! ## `parse_config` and its helpers -/

/-- `key.split(".", maxsplit=1)` together with the `"." not in key` test:
`none` when the key has no dot, otherwise the parts before and after the
first dot. -/
def splitFirstDot : List Char → Option (List Char × List Char)
  | '.' :: rest => some ([], rest)
  | c :: rest => (splitFirstDot rest).map (fun p => (c :: p.1, p.2))
  | [] => Option.none

/-- Fueled worker for the nested helper `assign_value` of `parse_config`.
A dot-free key equal to `"json_object"` is dropped without touching the
closure; otherwise the parsed value is assigned (`closure[key] = …` — a
`TypeError` when the closure is not a dict, raised after the right-hand
side has been evaluated, matching Python's evaluation order).  For a
dotted key the head segment is created as an empty dict when absent and
the assignment recurses into it; every subscript or membership operation
on a non-dict closure raises `TypeError`.  The recursion is on a strictly
shorter key, so fuel `key.length + 1` suffices. -/
def assignF : Nat → PyVal → List Char → List Char → Except PyErr PyVal
  | 0, _, _, _ => .error .fuelExhausted
  | f + 1, closure, key, value =>
    match splitFirstDot key with
    | Option.none =>
      if key = "json_object".data then .ok closure
      else
        match parse_value value with
        | .error e => .error e
        | .ok v =>
          match closure with
          | .dict d => .ok (.dict (dictSet d (.str key) v))
          | _ => .error .typeError
    | some (lk, rem) =>
      match closure with
      | .dict d =>
        let d2 := if (dictFind (.str lk) d).isSome then d else dictSet d (.str lk) (.dict .nil)
        match dictFind (.str lk) d2 with
        | some sub =>
          match assignF f sub rem value with
          | .error e => .error e
          | .ok sub2 => .ok (.dict (dictSet d2 (.str lk) sub2))
        | Option.none => .error .typeError
      | _ => .error .typeError

/-- `assign_value` from `utils.py` (the closure defined inside
`parse_config`). -/
def assign_value (closure : PyVal) (key value : List Char) : Except PyErr PyVal :=
  assignF (key.length + 1) closure key value

/-- The local `version_fields` list of `parse_config`: the caller's list is
copied (`version_fields = version_fields[:]`) and `"manifest.version"` is
appended to the copy exactly when the `manifest.version` search
succeeds. -/
def localVersionFields (config_str : List Char) (version_fields : List (List Char)) :
    List (List Char) :=
  match manifestVersionOf config_str with
  | some _ => version_fields ++ ["manifest.version".data]
  | Option.none => version_fields

/-- The line loop of `parse_config`: strip, skip blanks, match `param_re`
(a non-match is a fatal `ValueError` naming the stripped line), unescape
the key, mask dates and versions in the value for the configured fields,
and assign through `assign_value`. -/
def configLoop (dated vf : List (List Char)) (vstr : Option (List Char)) :
    PyVal → List (List Char) → Except PyErr PyVal
  | config, [] => .ok config
  | config, rawline :: rest =>
    let line := pyStrip rawline
    if line = [] then configLoop dated vf vstr config rest
    else
      match paramMatch line with
      | Option.none =>
        .error (.valueError ("The offending line is `".data ++ line ++ "`".data))
      | some (key, value) =>
        let ek := escapeSub key
        let v1 := if ek ∈ dated then dateSub value else value
        let v2 :=
          match vstr with
          | some vs => if ek ∈ vf ∧ vs ≠ [] then strReplace v1 vs "VER.SI.ON".data else v1
          | Option.none => v1
        match assign_value config ek v2 with
        | .error e => .error e
        | .ok config2 => configLoop dated vf vstr config2 rest

/-! ## Canonicalization (`json.loads(json.dumps(config, sort_keys=True))`) -/

/-- String comparison (`<` on Python strings: code-point lexicographic). -/
def strLt : List Char → List Char → Bool
  | [], [] => false
  | [], _ :: _ => true
  | _ :: _, [] => false
  | a :: as1, b :: bs =>
    if a < b then true else if a = b then strLt as1 bs else false

/-- Stable sorted insertion by key (`sorted` is stable: an element is
placed before the first entry that is not strictly smaller). -/
def insertPair (p : List Char × PyVal) :
    List (List Char × PyVal) → List (List Char × PyVal)
  | [] => [p]
  | q :: qs => if strLt q.1 p.1 then q :: insertPair p qs else p :: q :: qs

/-- Insertion sort by key — the `sort_keys=True` ordering. -/
def sortPairs : List (List Char × PyVal) → List (List Char × PyVal)
  | [] => []
  | p :: ps => insertPair p (sortPairs ps)

/-- `json.loads` keeps the last of several identical keys (only reachable
for dicts built by hand with duplicate keys). -/
def dedupLast : List (List Char × PyVal) → List (List Char × PyVal)
  | [] => []
  | [p] => [p]
  | p :: q :: rest =>
    if p.1 = q.1 then dedupLast (q :: rest) else p :: dedupLast (q :: rest)

/-- JSON object keys produced by `json.dumps` for Python dict keys:
strings stay, booleans and `None` are converted, containers are a
`TypeError` (they are not acceptable dict keys in the first place). -/
def keyJson : PyVal → Except PyErr (List Char)
  | .str s => .ok s
  | .bool true => .ok "true".data
  | .bool false => .ok "false".data
  | .none => .ok "null".data
  | _ => .error .typeError

/-- All keys of the dict are strings. -/
def allStrKeys : PyDict → Bool
  | .nil => true
  | .cons k _ d =>
    (match k with
     | .str _ => true
     | _ => false) && allStrKeys d

/-- All keys of the dict are booleans. -/
def allBoolKeys : PyDict → Bool
  | .nil => true
  | .cons k _ d =>
    (match k with
     | .bool _ => true
     | _ => false) && allBoolKeys d

/-- `sort_keys=True` compares the original dict keys with `<`, which is a
`TypeError` for mixed key types; with at most one key no comparison is
made.  (All-boolean keys sort `False < True`, which coincides with the
lexicographic order of their JSON spellings `"false" < "true"`, so sorting
after key conversion below is faithful.) -/
def keysHomog (d : PyDict) : Bool :=
  decide (d.size ≤ 1) || allStrKeys d || allBoolKeys d

/-- Rebuild a canonical dict from sorted, key-converted entries. -/
def dictOfSorted : List (List Char × PyVal) → PyDict
  | [] => .nil
  | p :: ps => .cons (.str p.1) p.2 (dictOfSorted ps)

mutual

/-- `json.loads(json.dumps(·, sort_keys=True))`: scalars unchanged, lists
canonicalized pointwise, dicts key-converted, recursively canonicalized
and sorted by key. -/
def canon : PyVal → Except PyErr PyVal
  | .str s => .ok (.str s)
  | .bool b => .ok (.bool b)
  | .none => .ok .none
  | .list xs =>
    match canonL xs with
    | .error e => .error e
    | .ok ys => .ok (.list ys)
  | .dict d =>
    if keysHomog d then
      match canonD d with
      | .error e => .error e
      | .ok pairs => .ok (.dict (dictOfSorted (dedupLast (sortPairs pairs))))
    else .error .typeError

/-- Canonicalize every element of a list. -/
def canonL : PyList → Except PyErr PyList
  | .nil => .ok .nil
  | .cons x xs =>
    match canon x with
    | .error e => .error e
    | .ok y =>
      match canonL xs with
      | .error e => .error e
      | .ok ys => .ok (.cons y ys)

/-- Convert the keys and canonicalize the values of a dict. -/
def canonD : PyDict → Except PyErr (List (List Char × PyVal))
  | .nil => .ok []
  | .cons k v d =>
    match keyJson k with
    | .error e => .error e
    | .ok kj =>
      match canon v with
      | .error e => .error e
      | .ok w =>
        match canonD d with
        | .error e => .error e
        | .ok rest => .ok ((kj, w) :: rest)

end

/-- `parse_config` from `utils.py`. -/
def parse_config (config_str : List Char) (dated_fields version_fields : List (List Char)) :
    Except PyErr PyVal :=
  let vf := localVersionFields config_str version_fields
  let vstr := manifestVersionOf config_str
  match configLoop dated_fields vf vstr (.dict .nil) (splitLines config_str) with
  | .error e => .error e
  | .ok config => canon config

/-! ## `diff_json` and Python equality -/

mutual

/-- Python `==` on the values at hand: structural on scalars and lists,
order-insensitive on dicts (same length and every entry of the left dict
present with an equal value in the right one). -/
def pyEq : PyVal → PyVal → Bool
  | .str a, .str b => a = b
  | .bool a, .bool b => a = b
  | .none, .none => true
  | .list a, .list b => pyEqL a b
  | .dict a, .dict b => (a.size = b.size) && pyEqD a b
  | _, _ => false

/-- Pointwise `==` on lists (including the length check). -/
def pyEqL : PyList → PyList → Bool
  | .nil, .nil => true
  | .cons x xs, .cons y ys => pyEq x y && pyEqL xs ys
  | _, _ => false

/-- Every entry of the first dict appears with an equal value in the
second one. -/
def pyEqD : PyDict → PyDict → Bool
  | .nil, _ => true
  | .cons k v d, b =>
    (match dictFind k b with
     | some w => pyEq v w
     | Option.none => false) && pyEqD d b

end

/-- `isinstance(alpha, type(beta))` for the value types at hand. -/
def pyTypeEq : PyVal → PyVal → Bool
  | .str _, .str _ => true
  | .bool _, .bool _ => true
  | .none, .none => true
  | .list _, .list _ => true
  | .dict _, .dict _ => true
  | _, _ => false

/-- `f"{key}"` for dict keys as interpolated into diff paths.  Keys are
always hashable (lists/dicts cannot be inserted), so the container cases
are unreachable. -/
def keyStr : PyVal → List Char
  | .str s => s
  | .bool true => "True".data
  | .bool false => "False".data
  | .none => "None".data
  | .list _ => []
  | .dict _ => []

/-- Prefix a sub-difference with the list index `[i]`. -/
def diffIndexPrefix (i : Nat) (t : List Char × PyVal × PyVal) :
    List Char × PyVal × PyVal :=
  ('[' :: ((Nat.repr i).data ++ (']' :: t.1)), t.2.1, t.2.2)

/-- The second loop of the Mapping case of `diff_json`: keys of `b` that
are absent from `a` are reported as `(key, None, value)`. -/
def diffExtra (a : PyDict) : PyDict → List (List Char × PyVal × PyVal)
  | .nil => []
  | .cons k v d =>
    (if (dictFind k a).isSome then [] else [(keyStr k, PyVal.none, v)]) ++
      diffExtra a d

/-- The tail of the Sequence case after the left list is exhausted:
`diff_json(None, y)` evaluates (by the definition below) to `[]` when `y`
is `None` and to `[("", None, y)]` otherwise, so it is inlined here to
keep the recursion structural on the left value; the lemma
`diff_json_none_left` below checks the inlining against `diff_json`
itself. -/
def diffNoneLeft (i : Nat) : PyList → List (List Char × PyVal × PyVal)
  | .nil => []
  | .cons y ys =>
    (if y = PyVal.none then [] else [([], PyVal.none, y)]).map (diffIndexPrefix i) ++
      diffNoneLeft (i + 1) ys

mutual

/-- `diff_json` from `utils.py`: recursively generated differences as
`(jsonpath, before, after)` triples, with Python's `None` (modelled by
`PyVal.none`) on an absent side. -/
def diff_json (alpha beta : PyVal) : List (List Char × PyVal × PyVal) :=
  if pyEq alpha beta then []
  else if !(pyTypeEq alpha beta) then [([], alpha, beta)]
  else
    match alpha, beta with
    | .dict a, .dict b => diffDictGo b a ++ diffExtra a b
    | .list a, .list b => diffListGo 0 a b
    | a, b => [([], a, b)]

/-- First loop of the Mapping case: keys present in both sides recurse
with the sub-paths prefixed by `f".{key}"`; keys absent from `b` are
reported bare as `(key, value, None)`. -/
def diffDictGo (b : PyDict) : PyDict → List (List Char × PyVal × PyVal)
  | .nil => []
  | .cons k v d =>
    (match dictFind k b with
     | some w =>
       (diff_json v w).map (fun t => ('.' :: (keyStr k ++ t.1), t.2.1, t.2.2))
     | Option.none => [(keyStr k, v, PyVal.none)]) ++ diffDictGo b d

/-- The Sequence case: `itertools.zip_longest` with `None` filling, each
sub-difference prefixed with `[index]`. -/
def diffListGo (i : Nat) : PyList → PyList → List (List Char × PyVal × PyVal)
  | .nil, ys => diffNoneLeft i ys
  | .cons x xs, .nil =>
    (diff_json x PyVal.none).map (diffIndexPrefix i) ++ diffListGo (i + 1) xs .nil
  | .cons x xs, .cons y ys =>
    (diff_json x y).map (diffIndexPrefix i) ++ diffListGo (i + 1) xs ys

end

/-- The inlining used by `diffNoneLeft` agrees with `diff_json` on a
`None` left-hand side. -/
theorem diff_json_none_left (y : PyVal) :
    diff_json PyVal.none y = if y = PyVal.none then [] else [([], PyVal.none, y)] := by
  cases y <;> simp [diff_json, pyEq, pyTypeEq]

/-! ## Deep key search (used to state the `json_object` claims) -/

mutual

/-- Does a string key occur anywhere in the tree (at any depth)? -/
def hasKeyDeep (k : List Char) : PyVal → Bool
  | .dict d => hasKeyD k d
  | .list xs => hasKeyL k xs
  | _ => false

/-- Key search through list elements. -/
def hasKeyL (k : List Char) : PyList → Bool
  | .nil => false
  | .cons x xs => hasKeyDeep k x || hasKeyL k xs

/-- Key search through dict entries (the key itself or deeper). -/
def hasKeyD (k : List Char) : PyDict → Bool
  | .nil => false
  | .cons k0 v d =>
    (match k0 with
     | .str s => s = k
     | _ => false) || hasKeyDeep k v || hasKeyD k d

end

/-! ## Sortedness of canonical trees -/

/-- The keys of the dict are strings in (non-strict) ascending
lexicographic order. -/
def dictKeysSorted : PyDict → Bool
  | .nil => true
  | .cons k _ d =>
    match k, d with
    | .str _, .nil => true
    | .str a, .cons k2 _ _ =>
      (match k2 with
       | .str b => !strLt b a
       | _ => false) && dictKeysSorted d
    | _, _ => false

mutual

/-- Every dict anywhere in the tree has its (string) keys in sorted
order. -/
inductive SortedJson : PyVal → Prop
  | str (s : List Char) : SortedJson (.str s)
  | bool (b : Bool) : SortedJson (.bool b)
  | none : SortedJson .none
  | list (xs : PyList) : SortedL xs → SortedJson (.list xs)
  | dict (d : PyDict) : dictKeysSorted d = true → SortedD d → SortedJson (.dict d)

/-- All elements of the list are sorted trees. -/
inductive SortedL : PyList → Prop
  | nil : SortedL .nil
  | cons (x : PyVal) (xs : PyList) : SortedJson x → SortedL xs → SortedL (.cons x xs)

/-- All values of the dict are sorted trees. -/
inductive SortedD : PyDict → Prop
  | nil : SortedD .nil
  | cons (k v : PyVal) (d : PyDict) : SortedJson v → SortedD d → SortedD (.cons k v d)

end

/-! ## The `version_fields` frame effect

`parse_config` receives the caller's `version_fields` list — a mutable
Python object.  To state the frame claim the mutation semantics is made
explicit with a small store of string-list cells: `version_fields[:]`
allocates a fresh cell holding a copy, and the conditional
`version_fields.append("manifest.version")` mutates that fresh cell
only. -/

/-- Read a cell of the store. -/
def storeGet (st : List (List (List Char))) (r : Nat) : List (List Char) :=
  st.getD r []

/-- Write a cell of the store. -/
def storeSet (st : List (List (List Char))) (r : Nat) (v : List (List Char)) :
    List (List (List Char)) :=
  st.set r v

/-- The `version_fields` setup of `parse_config` (lines
`version_fields = version_fields[:]` and the conditional
`version_fields.append("manifest.version")`), acting on the store:
returns the new store and the reference held by the local name
`version_fields`. -/
def vfSetup (st : List (List (List Char))) (caller : Nat) (config_str : List Char) :
    List (List (List Char)) × Nat :=
  let st1 := st ++ [storeGet st caller]
  let localRef := st.length
  match manifestVersionOf config_str with
  | some _ =>
    (storeSet st1 localRef (storeGet st1 localRef ++ ["manifest.version".data]), localRef)
  | Option.none => (st1, localRef)

/-! ## Fuel adequacy for the value parser -/

/-- Every part of a `", "` split is at most as long as the input. -/
theorem splitCS_length_le :
    ∀ (l t : List Char), t ∈ splitCS l → t.length ≤ l.length := by
  intro l
  induction l using splitCS.induct with
  | case1 =>
    intro t ht
    simp only [splitCS, List.mem_singleton] at ht
    simp [ht]
  | case2 c =>
    intro t ht
    simp only [splitCS, List.mem_singleton] at ht
    simp [ht]
  | case3 c c2 rest h ih =>
    intro t ht
    simp only [splitCS, h, if_true] at ht
    rcases List.mem_cons.mp ht with h1 | h1
    · simp [h1]
    · have := ih t h1
      simp only [List.length_cons]
      omega
  | case4 c c2 rest h hnil ih =>
    intro t ht
    simp only [splitCS, h, if_false, hnil] at ht
    simp only [List.mem_singleton] at ht
    simp [ht]
  | case5 c c2 rest h t0 ts hcons ih =>
    intro t ht
    simp only [splitCS, h, if_false, hcons] at ht
    rcases List.mem_cons.mp ht with h1 | h1
    · have := ih t0 (by rw [hcons]; exact List.mem_cons_self _ _)
      simp only [List.length_cons] at this ⊢
      simp only [h1, List.length_cons]
      omega
    · have := ih t (by rw [hcons]; exact List.mem_cons_of_mem _ h1)
      simp only [List.length_cons] at this ⊢
      omega

/-- The two parts of a `\=` split are shorter than the token. -/
theorem splitEscEq_length :
    ∀ (t k v : List Char), splitEscEq t = some (k, v) →
      k.length ≤ t.length ∧ v.length ≤ t.length := by
  intro t
  induction t using splitEscEq.induct with
  | case1 =>
    intro k v h
    simp [splitEscEq] at h
  | case2 c =>
    intro k v h
    simp [splitEscEq] at h
  | case3 c c2 rest hcond =>
    intro k v h
    obtain ⟨rfl, rfl⟩ := hcond
    simp [splitEscEq] at h
    obtain ⟨h1, h2⟩ := h
    subst h1
    subst h2
    simp
    omega
  | case4 c c2 rest hcond ih =>
    intro k v h
    simp only [splitEscEq, hcond, if_false] at h
    rcases hs : splitEscEq (c2 :: rest) with _ | ⟨k0, v0⟩
    · rw [hs] at h
      simp at h
    · rw [hs] at h
      simp only [Option.map_some', Option.some.injEq] at h
      have hk : k = c :: k0 := (congrArg Prod.fst h).symm
      have hv : v = v0 := (congrArg Prod.snd h).symm
      have := ih k0 v0 hs
      subst hk
      subst hv
      simp only [List.length_cons] at this ⊢
      omega

/-- The list loop only queries the element parser on strings no longer
than the unscanned text plus the current element. -/
theorem listGoF_congr (pv pv' : List Char → Except PyErr PyVal) :
    ∀ (rest stack cur : List Char) (acc : List PyVal),
      (∀ t : List Char, t.length ≤ cur.length + rest.length → pv t = pv' t) →
      listGoF pv stack cur acc rest = listGoF pv' stack cur acc rest := by
  intro rest
  induction rest with
  | nil =>
    intro stack cur acc h
    cases stack with
    | cons t ts => simp [listGoF]
    | nil =>
      simp only [listGoF]
      by_cases hc : cur.length > 1
      · rw [h cur (by simp)]
      · simp [hc]
  | cons c rest ih =>
    intro stack cur acc h
    have hsum : ∀ t : List Char,
        t.length ≤ (cur ++ [c]).length + rest.length → pv t = pv' t := by
      intro t ht
      apply h
      simp only [List.length_append, List.length_cons, List.length_nil] at ht ⊢
      omega
    have hrest : ∀ t : List Char, t.length ≤ rest.length → pv t = pv' t := by
      intro t ht
      apply h
      simp only [List.length_cons]
      omega
    simp only [listGoF]
    by_cases h1 : c = '{'
    · simp only [h1, if_pos rfl]
      exact ih ('}' :: stack) (cur ++ ['{']) acc (h1 ▸ hsum)
    by_cases h2 : c = '('
    · simp only [h1, if_neg h1, h2, if_pos rfl]
      exact ih (')' :: stack) (cur ++ ['(']) acc (h2 ▸ hsum)
    by_cases h3 : c = '}' ∨ c = ')'
    · simp only [if_neg h1, if_neg h2, if_pos h3]
      cases stack with
      | nil => rfl
      | cons t ts =>
        by_cases h4 : t = c
        · simp only [h4, if_pos rfl]
          exact ih ts (cur ++ [c]) acc hsum
        · simp [h4]
    by_cases h5 : c = ',' ∧ stack = []
    · simp only [if_neg h1, if_neg h2, if_neg h3, if_pos h5]
      rw [h cur (by simp only [List.length_cons]; omega)]
      cases pv' cur with
      | error e => rfl
      | ok v => exact ih [] [] (acc ++ [v]) (by intro t ht; exact hrest t (by simpa using ht))
    · simp only [if_neg h1, if_neg h2, if_neg h3, if_neg h5]
      exact ih stack (cur ++ [c]) acc hsum

/-- The dict loop only queries the element parser on the parts of the
`\=` splits of its tokens. -/
theorem dictGoF_congr (pv pv' : List Char → Except PyErr PyVal) :
    ∀ (tokens : List (List Char)) (d : PyDict),
      (∀ t k v, t ∈ tokens → splitEscEq t = some (k, v) →
        pv k = pv' k ∧ pv v = pv' v) →
      dictGoF pv tokens d = dictGoF pv' tokens d := by
  intro tokens
  induction tokens with
  | nil => intro d h; rfl
  | cons t ts ih =>
    intro d h
    simp only [dictGoF]
    cases hs : splitEscEq t with
    | none => rfl
    | some p =>
      obtain ⟨tk, tv⟩ := p
      obtain ⟨hk, hv⟩ := h t tk tv (List.mem_cons_self _ _) hs
      simp only [hv, hk]
      cases pv' tv with
      | error e => rfl
      | ok vv =>
        cases pv' tk with
        | error e => rfl
        | ok kv =>
          by_cases hh : isHashable kv
          · simp only [hh, if_pos rfl]
            exact ih _ (fun t' k' v' ht' hs' => h t' k' v' (List.mem_cons_of_mem _ ht') hs')
          · simp [hh]

/-- A string with distinct first and last characters has at least two
characters. -/
theorem two_le_length_of_head_getLast {s : List Char} {a b : Char}
    (hh : s.head? = some a) (hl : s.getLast? = some b) (hne : a ≠ b) :
    2 ≤ s.length := by
  match s with
  | [] => simp at hh
  | [x] =>
    simp only [List.head?_cons, Option.some.injEq] at hh
    simp only [List.getLast?_singleton, Option.some.injEq] at hl
    exact absurd (hh.symm.trans hl) hne
  | x :: y :: rest => simp

/-- `_parse_list_value` queries the element parser only on strings that
fit strictly inside the brackets. -/
theorem listValueF_congr (pv pv' : List Char → Except PyErr PyVal) (s : List Char)
    (h : ∀ t : List Char, t.length + 2 ≤ s.length → pv t = pv' t) :
    listValueF pv s = listValueF pv' s := by
  unfold listValueF
  cases hh : s.head? with
  | none => rfl
  | some c =>
    by_cases hc : c ≠ '['
    · simp [hc]
    push_neg at hc
    subst hc
    by_cases hl : s.getLast? ≠ some ']'
    · simp [hl]
    push_neg at hl
    have hlen : 2 ≤ s.length :=
      two_le_length_of_head_getLast hh hl (by decide)
    have hinner : ((s.drop 1).dropLast).length = s.length - 2 := by
      simp only [List.length_dropLast, List.length_drop]
      omega
    rw [listGoF_congr pv pv' ((s.drop 1).dropLast) [] [] []]
    intro t ht
    apply h
    simp only [List.length_nil] at ht
    omega

/-- `_parse_dict_value` queries the element parser only on the parts of
tokens that fit strictly inside the braces. -/
theorem dictValueF_congr (pv pv' : List Char → Except PyErr PyVal) (s : List Char)
    (h : ∀ t : List Char, t.length + 2 ≤ s.length → pv t = pv' t) :
    dictValueF pv s = dictValueF pv' s := by
  unfold dictValueF
  cases hh : s.head? with
  | none => rfl
  | some c =>
    by_cases hc : c ≠ '{'
    · simp [hc]
    push_neg at hc
    subst hc
    by_cases hl : s.getLast? ≠ some '}'
    · simp [hl]
    push_neg at hl
    have hlen : 2 ≤ s.length :=
      two_le_length_of_head_getLast hh hl (by decide)
    have hinner : ((s.drop 1).dropLast).length = s.length - 2 := by
      simp only [List.length_dropLast, List.length_drop]
      omega
    rw [dictGoF_congr pv pv' (splitCS ((s.drop 1).dropLast)) PyDict.nil]
    intro t k v ht hs
    have htl := splitCS_length_le _ t ht
    have hkv := splitEscEq_length t k v hs
    constructor
    · apply h; omega
    · apply h; omega

/-- One unfolding of `parseStep` only queries the element parser on
strings at least two characters shorter. -/
theorem parseStep_congr (pv pv' : List Char → Except PyErr PyVal) (s : List Char)
    (h : ∀ t : List Char, t.length + 2 ≤ s.length → pv t = pv' t) :
    parseStep pv s = parseStep pv' s := by
  unfold parseStep
  by_cases h1 : closureMatch s = true
  · simp [h1]
  simp only [h1, Bool.false_eq_true, if_false]
  cases hp : pointerSub s with
  | some m => rfl
  | none =>
    by_cases h2 : s.head? = some '[' ∧ s.getLast? = some ']'
    · simp only [h2, if_pos, and_self, if_true]
      exact listValueF_congr pv pv' s h
    by_cases h3 : s.head? = some '{' ∧ s.getLast? = some '}'
    · simp only [h2, if_false, h3, if_true]
      exact dictValueF_congr pv pv' s h
    · simp [h2, h3]

/-- Results of `parseF` do not depend on the fuel, as long as it exceeds
the length of the string. -/
theorem parseF_irrel :
    ∀ (n : Nat) (s : List Char) (f g : Nat),
      s.length ≤ n → n < f → n < g → parseF f s = parseF g s := by
  intro n
  induction n using Nat.strong_induction_on with
  | _ n ih =>
    intro s f g hs hf hg
    obtain ⟨f', rfl⟩ : ∃ f', f = f' + 1 := ⟨f - 1, by omega⟩
    obtain ⟨g', rfl⟩ : ∃ g', g = g' + 1 := ⟨g - 1, by omega⟩
    simp only [parseF]
    apply parseStep_congr
    intro t ht
    have h1 : parseF f' t = parseF (t.length + 1) t :=
      ih t.length (by omega) t f' (t.length + 1) (le_refl _) (by omega) (by omega)
    have h2 : parseF g' t = parseF (t.length + 1) t :=
      ih t.length (by omega) t g' (t.length + 1) (le_refl _) (by omega) (by omega)
    rw [h1, h2]

/-- The defining unfolding of `parse_value`: it satisfies the recursion of
the source verbatim (this is the equation used by all later proofs). -/
theorem parse_value_eq (s : List Char) : parse_value s = parseStep parse_value s := by
  unfold parse_value
  simp only [parseF]
  apply parseStep_congr
  intro t ht
  show parseF s.length t = parseF (t.length + 1) t
  exact parseF_irrel t.length t _ _ (le_refl _) (by omega) (by omega)

/-! ## Entering the list branch of `parse_value` -/

/-- A bracketed token never matches the closure pattern (it does not start
with `S`). -/
theorem closureMatch_bracket (l : List Char) : closureMatch ('[' :: l) = false := rfl
/-- No suffix ending in `]` completes the pointer pattern: the final
`\w+` group would have to contain `]`, which is not a word character. -/
theorem pointerSubAfter_none :
    ∀ l : List Char, l.getLast? = some ']' → pointerSubAfter l = Option.none := by
  intro l
  induction l with
  | nil => intro h; simp at h
  | cons c rest ih =>
    intro h
    rw [pointerSubAfter]
    by_cases hc : c = '\n'
    · simp [hc]
    simp only [hc, if_false]
    cases rest with
    | nil =>
      have hcz : c = ']' := by simpa using h
      subst hcz
      simp [pointerSubAfter, pointerFallback]
    | cons r rs =>
      rw [ih (by rwa [List.getLast?_cons_cons] at h)]
      simp only [Option.map_none', Option.none_or]
      unfold pointerFallback
      by_cases hcs : c = ';'
      · subst hcs
        simp only [if_pos rfl]
        by_cases hr : r = '@'
        · subst hr
          cases rs with
          | nil =>
            rw [List.getLast?_cons_cons] at h
            simp at h
          | cons w ws =>
            have hlast : (w :: ws).getLast? = some ']' := by
              rwa [List.getLast?_cons_cons, List.getLast?_cons_cons] at h
            have hmem : ']' ∈ w :: ws := by
              obtain ⟨hne, heq⟩ :=
                List.mem_getLast?_eq_getLast (Option.mem_def.mpr hlast)
              rw [heq]
              exact List.getLast_mem hne
            have hall : (w :: ws).all isWordChar = false := by
              rcases Bool.eq_false_or_eq_true ((w :: ws).all isWordChar) with hf | ht
              · exact absurd (List.all_eq_true.mp hf ']' hmem) (by decide)
              · exact ht
            simp [hall]
        · simp [hr]
      · simp [hcs]

/-- A token ending in `]` never matches the pointer pattern. -/
theorem pointerSub_none (s : List Char) (h : s.getLast? = some ']') :
    pointerSub s = Option.none := by
  unfold pointerSub
  split
  · rename_i rest2
    cases rest2 with
    | nil => simp at h
    | cons r rs =>
      rw [pointerSubAfter_none (r :: rs)
        (by simp only [List.getLast?_cons_cons] at h; exact h)]
      rfl
  · rename_i rest2
    cases rest2 with
    | nil => simp at h
    | cons r rs =>
      rw [pointerSubAfter_none (r :: rs)
        (by simp only [List.getLast?_cons_cons] at h; exact h)]
      rfl
  · rfl

/-- The shape facts about a bracketed token `"[" ++ inner ++ "]"`. -/
theorem bracket_shape (inner : List Char) :
    ('[' :: inner ++ [']']).head? = some '[' ∧
    ('[' :: inner ++ [']']).getLast? = some ']' ∧
    (('[' :: inner ++ [']']).drop 1).dropLast = inner := by
  refine ⟨rfl, ?_, ?_⟩
  · show (('[' :: inner) ++ [']']).getLast? = some ']'
    exact List.getLast?_concat _
  · show (inner ++ [']']).dropLast = inner
    exact List.dropLast_concat ..

/-- On a bracketed token, `parse_value` reaches `_parse_list_value`: the
closure and pointer masks cannot match, and the delimiter guard holds. -/
theorem parse_value_bracket (inner : List Char) :
    parse_value ('[' :: inner ++ [']']) = listValue ('[' :: inner ++ [']']) := by
  obtain ⟨hh, hl, _⟩ := bracket_shape inner
  rw [parse_value_eq]
  unfold parseStep
  have hcm : closureMatch ('[' :: inner ++ [']']) = false := by
    rw [List.cons_append]
    exact closureMatch_bracket _
  rw [hcm]
  simp only [Bool.false_eq_true, if_false]
  rw [pointerSub_none _ hl]
  simp only [hh, hl, and_self, if_true]
  rfl

/-- `_parse_list_value` on a bracketed token runs the scanning loop on the
inner text. -/
theorem listValue_inner (inner : List Char) :
    listValue ('[' :: inner ++ [']']) =
      match listGoF parse_value [] [] [] inner with
      | .error e => .error e
      | .ok vs => .ok (.list (PyList.ofList vs)) := by
  obtain ⟨hh, hl, hi⟩ := bracket_shape inner
  unfold listValue listValueF
  rw [hh, hl, hi]
  simp

/-- The top-level split always produces at least one (possibly empty)
element token. -/
theorem topSplitGo_ne_nil :
    ∀ (rest stack cur : List Char), topSplitGo stack cur rest ≠ [] := by
  intro rest
  induction rest with
  | nil => intro stack cur; simp [topSplitGo]
  | cons c rest ih =>
    intro stack cur
    simp only [topSplitGo]
    by_cases h1 : c = '{'
    · simp only [h1, if_pos rfl]; exact ih _ _
    by_cases h2 : c = '('
    · simp only [if_neg h1, h2, if_pos rfl]; exact ih _ _
    by_cases h3 : c = '}' ∨ c = ')'
    · simp only [if_neg h1, if_neg h2, if_pos h3]
      cases stack with
      | nil => exact ih _ _
      | cons t ts =>
        by_cases h4 : t = c
        · simp only [h4, if_pos rfl]; exact ih _ _
        · simp only [if_neg h4]; exact ih _ _
    by_cases h5 : c = ',' ∧ stack = []
    · simp only [if_neg h1, if_neg h2, if_neg h3, if_pos h5]; simp
    · simp only [if_neg h1, if_neg h2, if_neg h3, if_neg h5]; exact ih _ _

/-- If the scanning loop returns a value, the pure bracket scan of the
remaining text runs to the end and leaves an empty stack. -/
theorem listGoF_ok_scan (pv : List Char → Except PyErr PyVal) :
    ∀ (rest stack cur : List Char) (acc vs : List PyVal),
      listGoF pv stack cur acc rest = .ok vs → bracketScan stack rest = .done [] := by
  intro rest
  induction rest with
  | nil =>
    intro stack cur acc vs h
    cases stack with
    | nil => rfl
    | cons t ts => simp [listGoF] at h
  | cons c rest ih =>
    intro stack cur acc vs h
    simp only [listGoF] at h
    simp only [bracketScan]
    by_cases h1 : c = '{'
    · simp only [h1, if_pos rfl] at h ⊢
      exact ih _ _ _ _ h
    by_cases h2 : c = '('
    · simp only [if_neg h1, h2, if_pos rfl] at h ⊢
      exact ih _ _ _ _ h
    by_cases h3 : c = '}' ∨ c = ')'
    · simp only [if_neg h1, if_neg h2, if_pos h3] at h ⊢
      cases stack with
      | nil => simp at h
      | cons t ts =>
        by_cases h4 : t = c
        · simp only [h4, if_pos rfl] at h ⊢
          exact ih _ _ _ _ h
        · simp [h4] at h
    by_cases h5 : c = ',' ∧ stack = []
    · simp only [if_neg h1, if_neg h2, if_neg h3, if_pos h5] at h
      simp only [if_neg h1, if_neg h2, if_neg h3]
      cases hpv : pv cur with
      | error e => rw [hpv] at h; simp at h
      | ok v =>
        rw [hpv] at h
        rw [h5.2]
        exact ih _ _ _ _ h
    · simp only [if_neg h1, if_neg h2, if_neg h3, if_neg h5] at h
      simp only [if_neg h1, if_neg h2, if_neg h3]
      exact ih _ _ _ _ h

/-- The claim's unbalanced-bracket condition on a list body, relative to a
starting stack: the pure scan either meets a closing bracket that does not
match the expected one, or finishes the token with a non-empty stack. -/
def scanBad (stack rest : List Char) : Prop :=
  bracketScan stack rest = .mismatch ∨
    ∃ st, bracketScan stack rest = .done st ∧ st ≠ []

/-- On an unbalanced body whose top-level element tokens all parse, the
scanning loop fails with precisely the assertion error. -/
theorem listGoF_scanBad (pv : List Char → Except PyErr PyVal) :
    ∀ (rest stack cur : List Char) (acc : List PyVal),
      scanBad stack rest →
      (∀ e ∈ topSplitGo stack cur rest, ∃ v, pv e = .ok v) →
      listGoF pv stack cur acc rest = .error .assertionError := by
  intro rest
  induction rest with
  | nil =>
    intro stack cur acc hbad helem
    cases stack with
    | nil =>
      exfalso
      rcases hbad with h | ⟨st, h, hne⟩
      · simp [bracketScan] at h
      · simp only [bracketScan, ScanOut.done.injEq] at h
        exact hne h.symm
    | cons t ts => simp [listGoF]
  | cons c rest ih =>
    intro stack cur acc hbad helem
    simp only [listGoF]
    simp only [scanBad, bracketScan] at hbad
    simp only [topSplitGo] at helem
    by_cases h1 : c = '{'
    · simp only [h1, if_pos rfl] at hbad helem ⊢
      exact ih _ _ _ hbad helem
    by_cases h2 : c = '('
    · simp only [if_neg h1, h2, if_pos rfl] at hbad helem ⊢
      exact ih _ _ _ hbad helem
    by_cases h3 : c = '}' ∨ c = ')'
    · simp only [if_neg h1, if_neg h2, if_pos h3] at hbad helem ⊢
      cases stack with
      | nil =>
        exfalso
        rcases hbad with h | ⟨st, h, hne⟩ <;> simp at h
      | cons t ts =>
        by_cases h4 : t = c
        · simp only [h4, if_pos rfl] at hbad helem ⊢
          exact ih _ _ _ hbad helem
        · simp [h4]
    by_cases h5 : c = ',' ∧ stack = []
    · simp only [if_neg h1, if_neg h2, if_neg h3, if_pos h5] at hbad helem ⊢
      obtain ⟨v, hv⟩ := helem cur (List.mem_cons_self _ _)
      rw [hv]
      apply ih
      · rw [h5.2] at hbad
        exact hbad
      · intro e he
        exact helem e (List.mem_cons_of_mem _ he)
    · simp only [if_neg h1, if_neg h2, if_neg h3, if_neg h5] at hbad helem ⊢
      exact ih _ _ _ hbad helem

/-- On a balanced body, the scanning loop is exactly: parse every
top-level element except the last, then parse the last element only when
it is longer than one character (otherwise it is silently dropped). -/
theorem listGoF_balanced (pv : List Char → Except PyErr PyVal) :
    ∀ (rest stack cur : List Char) (acc : List PyVal),
      bracketScan stack rest = .done [] →
      listGoF pv stack cur acc rest =
        match exMapM pv (topSplitGo stack cur rest).dropLast with
        | .error e => .error e
        | .ok vs =>
          if ((topSplitGo stack cur rest).getLast?.getD []).length > 1 then
            match pv ((topSplitGo stack cur rest).getLast?.getD []) with
            | .error e => .error e
            | .ok v => .ok (acc ++ vs ++ [v])
          else .ok (acc ++ vs) := by
  intro rest
  induction rest with
  | nil =>
    intro stack cur acc hscan
    have hst : stack = [] := by
      simpa [bracketScan] using hscan
    subst hst
    simp only [listGoF, topSplitGo, List.dropLast_single, exMapM,
      List.getLast?_singleton, Option.getD_some]
    by_cases hc : cur.length > 1
    · simp only [hc, if_pos rfl, if_true]
      cases pv cur with
      | error e => rfl
      | ok v => simp
    · simp only [hc, if_false]
      simp
  | cons c rest ih =>
    intro stack cur acc hscan
    simp only [listGoF]
    simp only [bracketScan] at hscan
    simp only [topSplitGo]
    by_cases h1 : c = '{'
    · simp only [h1, if_pos rfl] at hscan ⊢
      exact ih _ _ _ hscan
    by_cases h2 : c = '('
    · simp only [if_neg h1, h2, if_pos rfl] at hscan ⊢
      exact ih _ _ _ hscan
    by_cases h3 : c = '}' ∨ c = ')'
    · simp only [if_neg h1, if_neg h2, if_pos h3] at hscan ⊢
      cases stack with
      | nil => simp at hscan
      | cons t ts =>
        by_cases h4 : t = c
        · simp only [h4, if_pos rfl] at hscan ⊢
          exact ih _ _ _ hscan
        · simp only [if_neg h4] at hscan
          simp at hscan
    by_cases h5 : c = ',' ∧ stack = []
    · simp only [if_neg h1, if_neg h2, if_neg h3, if_pos h5]
      simp only [if_neg h1, if_neg h2, if_neg h3] at hscan
      rw [h5.2] at hscan
      obtain ⟨t0, ts, hT⟩ :
          ∃ t0 ts, topSplitGo [] [] rest = t0 :: ts := by
        rcases hh : topSplitGo [] [] rest with _ | ⟨t0, ts⟩
        · exact absurd hh (topSplitGo_ne_nil rest [] [])
        · exact ⟨t0, ts, rfl⟩
      rw [hT]
      simp only [List.dropLast_cons_of_ne_nil (List.cons_ne_nil t0 ts), exMapM,
        List.getLast?_cons_cons]
      cases hpv : pv cur with
      | error e => rfl
      | ok v =>
        dsimp only
        rw [ih [] [] (acc ++ [v]) hscan, hT]
        cases hmap : exMapM pv ((t0 :: ts).dropLast) with
        | error e => rfl
        | ok vs =>
          dsimp only
          by_cases hlen : (((t0 :: ts).getLast?).getD []).length > 1
          · simp only [hlen, if_true]
            cases pv (((t0 :: ts).getLast?).getD []) with
            | error e => rfl
            | ok w => simp
          · simp only [hlen, if_false]
            simp
    · simp only [if_neg h1, if_neg h2, if_neg h3, if_neg h5]
      simp only [if_neg h1, if_neg h2, if_neg h3] at hscan
      exact ih _ _ _ hscan

/-! ## Claim theorems: the value parser -/

/-- C1 (counterexample): on the token `[1, {a\=2, b\=[3, 4]}]`,
`parse_value` does **not** return the nested
`Sequence ["1", Mapping {"a": "2", "b": Sequence ["3", "4"]}]` of the
claim: the split at the top-level comma leaves the following element with
a leading space, so the brace-wrapped map is parsed through the scalar
branch (stripped and unescaped) instead of recursively. -/
theorem c1_counterexample :
    parse_value "[1, \x7ba\\=2, b\\=[3, 4]\x7d]".data =
      .ok (.list (.cons (.str "1".data) (.cons (.str "\x7ba=2, b=[3, 4]\x7d".data) .nil))) ∧
    PyVal.list (.cons (.str "1".data) (.cons (.str "\x7ba=2, b=[3, 4]\x7d".data) .nil)) ≠
      PyVal.list (.cons (.str "1".data)
        (.cons (.dict (.cons (.str "a".data) (.str "2".data)
          (.cons (.str "b".data)
            (.list (.cons (.str "3".data) (.cons (.str "4".data) .nil))) .nil)))
          .nil)) := by
  constructor
  · rfl
  · decide

/-- C1 (amended): `parse_value("[1, {a\=2, b\=[3, 4]}]")` yields the
Sequence `["1", "{a=2, b=[3, 4]}"]` — the first element is parsed
recursively, but every element after a top-level comma keeps its leading
space and is therefore parsed as an unescaped scalar, not as a nested
Mapping. -/
theorem c1_amended :
    parse_value "[1, \x7ba\\=2, b\\=[3, 4]\x7d]".data =
      .ok (.list (.cons (.str "1".data) (.cons (.str "\x7ba=2, b=[3, 4]\x7d".data) .nil))) := rfl

/-- C4 (counterexample): a backslash at the very start of a token is
*not* removed by the scalar unescaping — `ESCAPE_RE` requires a preceding
non-backslash character — so `parse_value "\=b"` is `"\=b"`, not the
`"=b"` the claim requires. -/
theorem c4_counterexample :
    parse_value "\\=b".data = .ok (.str "\\=b".data) ∧
    "\\=b".data ≠ "=b".data := by
  constructor
  · rfl
  · decide

/-- C4 (amended): scalar tokens are first trimmed, then every backslash
that is *preceded by a non-backslash character* and immediately precedes
a space, `=` or `:` is removed (`"a\=b"` gives `"a=b"`, `"a\ b"` gives
`"a b"`); a backslash at the start of the token is never removed. -/
theorem c4_amended :
    parse_value "a\\=b".data = .ok (.str "a=b".data) ∧
    parse_value "a\\ b".data = .ok (.str "a b".data) ∧
    (∀ (a c : Char) (rest : List Char), a ≠ '\\' → (c = ' ' ∨ c = '=' ∨ c = ':') →
      escapeSub (a :: '\\' :: c :: rest) = a :: c :: escapeSub rest) ∧
    (∀ t : List Char, escapeSub ('\\' :: t) = '\\' :: escapeSub t) := by
  refine ⟨rfl, rfl, ?_, ?_⟩
  · intro a c rest ha hc
    simp only [escapeSub]
    rw [if_pos ⟨trivial, ha, hc⟩]
  · intro t
    match t with
    | [] => rfl
    | [c] => rfl
    | c :: r :: rs =>
      simp only [escapeSub]
      rw [if_neg (by simp)]

/-- C4 (witness): the amended universal instantiated at the spec's own
example `a\=b`. -/
theorem c4_witness : escapeSub "a\\=b".data = "a=b".data := by
  have := c4_amended.2.2.1 'a' '=' "b".data (by decide) (by decide)
  simpa using this

/-- C5: on a bracketed list token whose body is unbalanced — the pure
bracket scan meets a mismatched closing bracket, or ends the token with a
non-empty stack — `parse_value` never returns a Sequence, and (whenever
every top-level element token itself parses, i.e. no element error
preempts the scan) the failure is precisely the assertion error. -/
theorem c5_unbalanced_assert (inner : List Char) (hbad : scanBad [] inner) :
    (∀ v : PyVal, parse_value ('[' :: inner ++ [']']) ≠ .ok v) ∧
    ((∀ e ∈ topElems inner, ∃ v, parse_value e = .ok v) →
      parse_value ('[' :: inner ++ [']']) = .error .assertionError) := by
  rw [parse_value_bracket, listValue_inner]
  constructor
  · intro v hok
    cases hgo : listGoF parse_value [] [] [] inner with
    | error e => rw [hgo] at hok; simp at hok
    | ok vs =>
      have hscan := listGoF_ok_scan parse_value inner [] [] [] vs hgo
      rcases hbad with h | ⟨st, h, hne⟩
      · rw [hscan] at h; simp at h
      · rw [hscan] at h
        simp only [ScanOut.done.injEq] at h
        exact hne h.symm
  · intro helem
    rw [listGoF_scanBad parse_value inner [] [] [] hbad helem]

/-- C5 (witness): the token `[x,(]` — the `(` pushed inside the body is
never closed (the scan ends with stack `[')']`), both top-level element
tokens `x` and `(` parse as scalars, and `parse_value` fails with the
assertion error. -/
theorem c5_witness :
    parse_value "[x,(]".data = .error .assertionError := by
  have hbad : scanBad [] "x,(".data := by
    right
    exact ⟨[')'], rfl, by decide⟩
  have helem : ∀ e ∈ topElems "x,(".data, ∃ v, parse_value e = .ok v := by
    intro e he
    have heq : topElems "x,(".data = ["x".data, "(".data] := rfl
    rw [heq] at he
    simp only [List.mem_cons, List.mem_singleton, List.not_mem_nil, or_false] at he
    rcases he with h | h
    · exact ⟨.str "x".data, by rw [h]; rfl⟩
    · exact ⟨.str "(".data, by rw [h]; rfl⟩
  exact (c5_unbalanced_assert "x,(".data hbad).2 helem

/-- C9: on a bracketed list token whose body is balanced and whose final
top-level element is exactly one character long, `parse_value` returns
the Sequence of the parses of all elements *except the last*, which is
silently dropped (the source appends the trailing element only when
`index > first_index`); in particular `parse_value "[a]"` is the empty
Sequence and `parse_value "[x,y]"` is `["x"]`. -/
theorem c9_last_element_dropped :
    (∀ inner : List Char, bracketScan [] inner = .done [] →
      ((topElems inner).getLast?.getD []).length = 1 →
      parse_value ('[' :: inner ++ [']']) =
        match exMapM parse_value (topElems inner).dropLast with
        | .error e => .error e
        | .ok vs => .ok (.list (PyList.ofList vs))) ∧
    parse_value "[a]".data = .ok (.list .nil) ∧
    parse_value "[x,y]".data = .ok (.list (.cons (.str "x".data) .nil)) := by
  refine ⟨?_, rfl, rfl⟩
  intro inner hscan hlen
  rw [parse_value_bracket, listValue_inner,
    listGoF_balanced parse_value inner [] [] [] hscan]
  unfold topElems at hlen ⊢
  have hlen2 : ¬ ((topSplitGo [] [] inner).getLast?.getD []).length > 1 := by
    omega
  simp only [if_neg hlen2]
  cases exMapM parse_value (topSplitGo [] [] inner).dropLast with
  | error e => rfl
  | ok vs => simp

/-- C9 (witness): the universal part instantiated at the body `x,y`. -/
theorem c9_witness :
    parse_value ('[' :: "x,y".data ++ [']']) =
      match exMapM parse_value (topElems "x,y".data).dropLast with
      | .error e => .error e
      | .ok vs => .ok (.list (PyList.ofList vs)) :=
  c9_last_element_dropped.1 "x,y".data rfl rfl

/-! ## Claim theorems: `diff_json` (C3) -/

/-- C3 (counterexample): recursing into a key present on both sides
prefixes the sub-path with `"." + key` by *plain string concatenation*;
since an absent-key sub-result carries no leading dot, the nested example
yields the path `".ak"`, not the `".a.k"` of the claim. -/
theorem c3_counterexample :
    diff_json
        (.dict (.cons (.str "a".data)
          (.dict (.cons (.str "k".data) (.str "1".data) .nil)) .nil))
        (.dict (.cons (.str "a".data) (.dict .nil) .nil)) =
      [(".ak".data, .str "1".data, PyVal.none)] ∧
    ".ak".data ≠ ".a.k".data := by
  exact ⟨rfl, by decide⟩

/-- C3 (amended): a key present only in the left Mapping is reported with
the bare key (no leading dot) and `None` on the absent side;
a difference found by recursing into a shared key is prefixed with
`"." + key` concatenated directly onto the sub-path, so the nested
absent-key example produces `".ak"` (not `".a.k"`). -/
theorem c3_amended :
    diff_json (.dict (.cons (.str "k".data) (.str "1".data) .nil)) (.dict .nil) =
      [("k".data, .str "1".data, PyVal.none)] ∧
    diff_json
        (.dict (.cons (.str "a".data)
          (.dict (.cons (.str "k".data) (.str "1".data) .nil)) .nil))
        (.dict (.cons (.str "a".data) (.dict .nil) .nil)) =
      [(".ak".data, .str "1".data, PyVal.none)] :=
  ⟨rfl, rfl⟩

/-! ## Claim theorems: the `json_object` drop (C2) -/

/-- C2 (counterexample): the key `"json_object"` is dropped only when it
is the *whole remaining key* (no dot); as an intermediate segment of a
dotted key it is retained, so `a.json_object.b=1` produces a
`json_object` entry in the tree. -/
theorem c2_counterexample :
    parse_config "a.json_object.b=1".data [] [] =
      .ok (.dict (.cons (.str "a".data)
        (.dict (.cons (.str "json_object".data)
          (.dict (.cons (.str "b".data) (.str "1".data) .nil)) .nil)) .nil)) ∧
    hasKeyDeep "json_object".data
      (.dict (.cons (.str "a".data)
        (.dict (.cons (.str "json_object".data)
          (.dict (.cons (.str "b".data) (.str "1".data) .nil)) .nil)) .nil)) = true :=
  ⟨rfl, rfl⟩

/-- C2 (amended): an assignment whose remaining key is exactly
`"json_object"` is unconditionally dropped — `assign_value` returns the
closure untouched for every closure and value — so a line
`a.json_object=anything` produces no `json_object` entry (only the empty
parent `{"a": {}}`); the drop does **not** apply to `json_object` as an
intermediate segment. -/
theorem c2_amended :
    (∀ (closure : PyVal) (value : List Char),
      assign_value closure "json_object".data value = .ok closure) ∧
    parse_config "a.json_object=x".data [] [] =
      .ok (.dict (.cons (.str "a".data) (.dict .nil) .nil)) := by
  refine ⟨?_, rfl⟩
  intro closure value
  rfl

/-! ## Claim theorems: the `version_fields` frame effect (C8) -/

/-- Appending a cell leaves the existing cells readable unchanged. -/
theorem storeGet_append :
    ∀ (st : List (List (List Char))) (x : List (List Char)) (r : Nat),
      r < st.length → storeGet (st ++ [x]) r = storeGet st r := by
  intro st
  induction st with
  | nil => intro x r hr; simp at hr
  | cons c st ih =>
    intro x r hr
    cases r with
    | zero => rfl
    | succ r2 =>
      show storeGet (st ++ [x]) r2 = storeGet st r2
      exact ih x r2 (by simpa using hr)

/-- The appended cell is readable at the old length. -/
theorem storeGet_append_self :
    ∀ (st : List (List (List Char))) (x : List (List Char)),
      storeGet (st ++ [x]) st.length = x := by
  intro st
  induction st with
  | nil => intro x; rfl
  | cons c st ih => intro x; exact ih x

/-- Writing one cell does not change the others. -/
theorem storeGet_set_ne :
    ∀ (st : List (List (List Char))) (i r : Nat) (v : List (List Char)),
      r ≠ i → storeGet (storeSet st i v) r = storeGet st r := by
  intro st
  induction st with
  | nil => intro i r v _; rfl
  | cons c st ih =>
    intro i r v hne
    cases i with
    | zero =>
      cases r with
      | zero => exact absurd rfl hne
      | succ r2 => rfl
    | succ i2 =>
      cases r with
      | zero => rfl
      | succ r2 => exact ih i2 r2 v (by omega)

/-- Writing a cell in range makes it readable. -/
theorem storeGet_set_self :
    ∀ (st : List (List (List Char))) (i : Nat) (v : List (List Char)),
      i < st.length → storeGet (storeSet st i v) i = v := by
  intro st
  induction st with
  | nil => intro i v hi; simp at hi
  | cons c st ih =>
    intro i v hi
    cases i with
    | zero => rfl
    | succ i2 => exact ih i2 v (by simpa using hi)

/-- C8: the `version_fields` setup of `parse_config` never mutates the
caller's list — the cell the caller holds reads the same after the call —
while the local name refers to a fresh cell holding the copy, augmented
with `"manifest.version"` exactly when the input contains a
`manifest.version` line; and `parse_config` then runs its line loop with
precisely that local list. -/
theorem c8_version_fields_frame (st : List (List (List Char))) (r : Nat)
    (config_str : List Char) (hr : r < st.length) :
    storeGet (vfSetup st r config_str).1 r = storeGet st r ∧
    storeGet (vfSetup st r config_str).1 (vfSetup st r config_str).2 =
      localVersionFields config_str (storeGet st r) ∧
    ∀ dated : List (List Char),
      parse_config config_str dated (storeGet st r) =
        match configLoop dated
            (storeGet (vfSetup st r config_str).1 (vfSetup st r config_str).2)
            (manifestVersionOf config_str) (.dict .nil) (splitLines config_str) with
        | .error e => .error e
        | .ok config => canon config := by
  have hlen : st.length < (st ++ [storeGet st r]).length := by simp
  unfold vfSetup localVersionFields
  cases hm : manifestVersionOf config_str with
  | none =>
    refine ⟨storeGet_append st _ r hr, storeGet_append_self st _, ?_⟩
    intro dated
    unfold parse_config localVersionFields
    rw [hm, storeGet_append_self st _]
  | some version =>
    constructor
    · rw [storeGet_set_ne _ _ _ _ (by omega), storeGet_append st _ r hr]
    constructor
    · rw [storeGet_set_self _ _ _ hlen, storeGet_append_self st _]
    · intro dated
      unfold parse_config localVersionFields
      rw [hm, storeGet_set_self _ _ _ hlen, storeGet_append_self st _]

/-- C8 (witness): a concrete store with the caller's list in cell 0 and
an input that does contain a `manifest.version` line. -/
theorem c8_witness :
    storeGet (vfSetup [["x".data]] 0 "manifest.version=1".data).1 0 = ["x".data] ∧
    storeGet (vfSetup [["x".data]] 0 "manifest.version=1".data).1
        (vfSetup [["x".data]] 0 "manifest.version=1".data).2 =
      ["x".data, "manifest.version".data] := by
  have h := c8_version_fields_frame [["x".data]] 0 "manifest.version=1".data (by decide)
  exact ⟨h.1, h.2.1⟩

/-! ## Claim theorems: one-character keys (C10) -/

/-- `param_re` cannot match any line without an `=` left to consume: the
walk runs off the end. -/
theorem pmAux_no_eq :
    ∀ (l pre : List Char), (∀ ch ∈ l, ch ≠ '=') → pmAux pre l = Option.none := by
  intro l
  induction l with
  | nil => intro pre h; rfl
  | cons b rest ih =>
    intro pre h
    cases rest with
    | nil =>
      show pmAux pre [b] = Option.none
      by_cases hb : isPySpace b
      · simp [pmAux, hb]
      · simp [pmAux, hb]
    | cons c2 rest2 =>
      have hc2 : c2 ≠ '=' := h c2 (by simp)
      simp only [pmAux]
      rw [if_neg (by intro hcon; exact hc2 hcon.1)]
      by_cases hb : isPySpace b
      · simp [hb]
      · simp only [hb, Bool.false_eq_true, if_false]
        exact ih (b :: pre) (fun ch hch => h ch (List.mem_cons_of_mem _ hch))

/-- A non-empty line without newlines is a single line. -/
theorem splitLines_no_newline :
    ∀ l : List Char, (∀ ch ∈ l, ch ≠ '\n') → l ≠ [] → splitLines l = [l] := by
  intro l
  induction l with
  | nil => intro _ h; exact absurd rfl h
  | cons c rest ih =>
    intro h _
    have hc : c ≠ '\n' := h c (by simp)
    simp only [splitLines, hc, if_neg hc]
    cases rest with
    | nil => rfl
    | cons r rs =>
      rw [ih (fun ch hch => h ch (List.mem_cons_of_mem _ hch)) (by simp)]
      simp

/-- C10 (counterexample): the line `x=a=b` has a one-character key before
its first `=`, yet `parse_config` does not raise — `param_re`'s lazy key
group extends across the first `=` and matches with key `x=a`. -/
theorem c10_counterexample :
    parse_config "x=a=b".data [] [] =
      .ok (.dict (.cons (.str "x=a".data) (.str "b".data) .nil)) ∧
    ∀ msg : List Char, parse_config "x=a=b".data [] [] ≠ .error (.valueError msg) := by
  refine ⟨rfl, ?_⟩
  intro msg h
  rw [show parse_config "x=a=b".data [] [] =
      .ok (.dict (.cons (.str "x=a".data) (.str "b".data) .nil)) from rfl] at h
  simp at h

/-- C10 (amended): a line `c=v` whose key is a single character **and**
whose remainder `v` contains no further `=` cannot match `param_re`
(the pattern needs at least two characters before the matched `=`), so
`parse_config` raises the `ValueError` naming the line; with a further
`=` in `v` the lazy key group can extend past the first `=` and the line
parses (see the counterexample). -/
theorem c10_amended (c : Char) (v : List Char) (dated vf : List (List Char))
    (hc : isPySpace c = false)
    (hv : ∀ ch ∈ v, ch ≠ '=' ∧ ch ≠ '\n')
    (hstrip : pyStrip (c :: '=' :: v) = c :: '=' :: v) :
    parse_config (c :: '=' :: v) dated vf =
      .error (.valueError
        ("The offending line is `".data ++ (c :: '=' :: v) ++ "`".data)) := by
  have hcn : c ≠ '\n' := by
    intro hh
    rw [hh] at hc
    simp [isPySpace] at hc
  have hlines : splitLines (c :: '=' :: v) = [c :: '=' :: v] := by
    apply splitLines_no_newline
    · intro ch hch
      rcases List.mem_cons.mp hch with h | h
      · rw [h]; exact hcn
      · rcases List.mem_cons.mp h with h2 | h2
        · rw [h2]; decide
        · exact (hv ch h2).2
    · simp
  have hmatch : paramMatch (c :: '=' :: v) = Option.none := by
    unfold paramMatch
    simp only [pmAux]
    rw [if_neg (by intro hcon; exact hcon.2.1 rfl)]
    simp only [hc, Bool.false_eq_true, if_false]
    cases v with
    | nil =>
      show pmAux [c] ['='] = Option.none
      simp [pmAux, isPySpace]
    | cons v0 vs =>
      have hv0 : v0 ≠ '=' := (hv v0 (by simp)).1
      simp only [pmAux]
      rw [if_neg (by intro hcon; exact hv0 hcon.1)]
      rw [if_neg (by simp [isPySpace])]
      exact pmAux_no_eq (v0 :: vs) _ (fun ch hch => (hv ch hch).1)
  unfold parse_config
  rw [hlines]
  simp only [configLoop, hstrip]
  rw [if_neg (by simp), hmatch]

/-- C10 (witness): the amended claim at the spec's example line `x=1`. -/
theorem c10_witness :
    parse_config "x=1".data [] [] =
      .error (.valueError "The offending line is `x=1`".data) := by
  have h := c10_amended 'x' "1".data [] [] (by decide)
    (by intro ch hch; simp at hch; rw [hch]; exact ⟨by decide, by decide⟩)
    (by decide)
  simpa using h

/-! ## Claim theorems: malformed lines (C6) -/

/-- The line loop processes a concatenation of line lists in sequence,
propagating the first error. -/
theorem configLoop_append (dated vf : List (List Char)) (vstr : Option (List Char)) :
    ∀ (xs ys : List (List Char)) (config : PyVal),
      configLoop dated vf vstr config (xs ++ ys) =
        match configLoop dated vf vstr config xs with
        | .error e => .error e
        | .ok c2 => configLoop dated vf vstr c2 ys := by
  intro xs
  induction xs with
  | nil => intro ys config; rfl
  | cons l rest ih =>
    intro ys config
    show configLoop dated vf vstr config (l :: (rest ++ ys)) = _
    simp only [configLoop]
    by_cases hblank : pyStrip l = []
    · simp only [hblank, if_pos rfl]
      exact ih ys config
    simp only [if_neg hblank]
    cases paramMatch (pyStrip l) with
    | none => rfl
    | some kv =>
      obtain ⟨key, value⟩ := kv
      dsimp only
      cases assign_value config (escapeSub key) _ with
      | error e => rfl
      | ok c2 => exact ih ys c2

/-- A list of lines containing a non-blank, non-matching line never loops
to a result. -/
theorem configLoop_bad_error (dated vf : List (List Char)) (vstr : Option (List Char)) :
    ∀ (lines : List (List Char)) (config : PyVal),
      (∃ l ∈ lines, pyStrip l ≠ [] ∧ paramMatch (pyStrip l) = Option.none) →
      ∃ e, configLoop dated vf vstr config lines = .error e := by
  intro lines
  induction lines with
  | nil =>
    intro config h
    obtain ⟨l, hl, _⟩ := h
    simp at hl
  | cons l rest ih =>
    intro config h
    simp only [configLoop]
    by_cases hblank : pyStrip l = []
    · simp only [hblank, if_pos rfl]
      apply ih
      obtain ⟨l0, hl0, hs, hm⟩ := h
      rcases List.mem_cons.mp hl0 with heq | hmem
      · exact absurd (heq ▸ hblank) hs
      · exact ⟨l0, hmem, hs, hm⟩
    simp only [if_neg hblank]
    cases hpm : paramMatch (pyStrip l) with
    | none => exact ⟨_, rfl⟩
    | some kv =>
      obtain ⟨key, value⟩ := kv
      dsimp only
      cases assign_value config (escapeSub key) _ with
      | error e => exact ⟨e, rfl⟩
      | ok c2 =>
        apply ih
        obtain ⟨l0, hl0, hs, hm⟩ := h
        rcases List.mem_cons.mp hl0 with heq | hmem
        · rw [heq] at hm
          rw [hm] at hpm
          cases hpm
        · exact ⟨l0, hmem, hs, hm⟩

/-- C6: an input containing a non-blank line that does not match the
`key=value` shape never parses to a result — `parse_config` raises — and
when the loop actually reaches such a line (every earlier line processed
without error), the exception is precisely the `ValueError` naming the
(stripped) offending line; no partial result is ever returned. -/
theorem c6_malformed_line (text : List Char) (dated vf : List (List Char))
    (hbad : ∃ l ∈ splitLines text, pyStrip l ≠ [] ∧ paramMatch (pyStrip l) = Option.none) :
    (∃ e, parse_config text dated vf = .error e) ∧
    (∀ (pre post : List (List Char)) (bad : List Char) (cfg : PyVal),
      splitLines text = pre ++ bad :: post →
      configLoop dated (localVersionFields text vf) (manifestVersionOf text)
        (.dict .nil) pre = .ok cfg →
      pyStrip bad ≠ [] → paramMatch (pyStrip bad) = Option.none →
      parse_config text dated vf =
        .error (.valueError ("The offending line is `".data ++ pyStrip bad ++ "`".data))) := by
  constructor
  · obtain ⟨e, he⟩ := configLoop_bad_error dated (localVersionFields text vf)
      (manifestVersionOf text) (splitLines text) (.dict .nil) hbad
    refine ⟨e, ?_⟩
    show (match configLoop dated (localVersionFields text vf) (manifestVersionOf text)
        (PyVal.dict PyDict.nil) (splitLines text) with
      | Except.error e => Except.error e
      | Except.ok config => canon config) = Except.error e
    rw [he]
  · intro pre post bad cfg hsplit hpre hs hm
    show (match configLoop dated (localVersionFields text vf) (manifestVersionOf text)
        (PyVal.dict PyDict.nil) (splitLines text) with
      | Except.error e => Except.error e
      | Except.ok config => canon config) = _
    rw [hsplit, configLoop_append, hpre]
    simp only [configLoop, if_neg hs, hm]

/-- C6 (witness): the single-line input `cd` aborts the whole parse with
the `ValueError` naming the line. -/
theorem c6_witness :
    parse_config "cd".data [] [] =
      .error (.valueError "The offending line is `cd`".data) := by
  have h := (c6_malformed_line "cd".data [] []
    ⟨"cd".data, by decide, by decide, rfl⟩).2 [] [] "cd".data (.dict .nil) rfl rfl
    (by decide) rfl
  simpa using h

/-! ## Claim theorems: canonical sorting (C7) -/

/-- String `<` is asymmetric. -/
theorem strLt_asymm : ∀ (a b : List Char), strLt a b = true → strLt b a = false := by
  intro a
  induction a with
  | nil =>
    intro b h
    cases b with
    | nil => simp [strLt] at h
    | cons y ys => rfl
  | cons x xs ih =>
    intro b h
    cases b with
    | nil => simp [strLt] at h
    | cons y ys =>
      simp only [strLt] at h ⊢
      by_cases hxy : x < y
      · rw [if_neg (lt_asymm hxy), if_neg (by intro hh; subst hh; exact lt_irrefl _ hxy)]
      · rw [if_neg hxy] at h
        by_cases hxe : x = y
        · subst hxe
          rw [if_pos rfl] at h
          rw [if_neg (lt_irrefl x), if_pos rfl]
          exact ih ys h
        · rw [if_neg hxe] at h
          simp at h

/-- String `≤` (the negation of `<` the other way) is transitive. -/
theorem strLe_trans :
    ∀ (c a b : List Char), strLt b a = false → strLt c b = false → strLt c a = false := by
  intro c
  induction c with
  | nil =>
    intro a b h1 h2
    cases b with
    | cons y ys => simp [strLt] at h2
    | nil =>
      cases a with
      | cons x xs => simp [strLt] at h1
      | nil => rfl
  | cons z zs ih =>
    intro a b h1 h2
    cases a with
    | nil => rfl
    | cons x xs =>
      cases b with
      | nil => simp [strLt] at h1
      | cons y ys =>
        simp only [strLt] at h1 h2 ⊢
        have hyx : ¬ y < x := by
          intro hh
          rw [if_pos hh] at h1
          exact Bool.true_eq_false.mp h1
        have hzy : ¬ z < y := by
          intro hh
          rw [if_pos hh] at h2
          exact Bool.true_eq_false.mp h2
        have hxy : x ≤ y := le_of_not_lt hyx
        have hyz : y ≤ z := le_of_not_lt hzy
        have hzx : ¬ z < x := not_lt_of_le (le_trans hxy hyz)
        rw [if_neg hzx]
        by_cases hze : z = x
        · rw [if_pos hze]
          subst hze
          have hey : z = y := le_antisymm (le_of_not_lt hyx) hyz
          subst hey
          rw [if_neg (lt_irrefl z), if_pos rfl] at h1 h2
          exact ih xs ys h1 h2
        · rw [if_neg hze]

/-- Elements of a sorted insertion. -/
theorem mem_insertPair (p : List Char × PyVal) :
    ∀ (l : List (List Char × PyVal)) (z : List Char × PyVal),
      z ∈ insertPair p l → z = p ∨ z ∈ l := by
  intro l
  induction l with
  | nil => intro z hz; simp [insertPair] at hz; exact Or.inl hz
  | cons q qs ih =>
    intro z hz
    simp only [insertPair] at hz
    by_cases hlt : strLt q.1 p.1
    · rw [if_pos hlt] at hz
      rcases List.mem_cons.mp hz with h | h
      · exact Or.inr (by rw [h]; exact List.mem_cons_self _ _)
      · rcases ih z h with h2 | h2
        · exact Or.inl h2
        · exact Or.inr (List.mem_cons_of_mem _ h2)
    · rw [if_neg hlt] at hz
      rcases List.mem_cons.mp hz with h | h
      · exact Or.inl h
      · exact Or.inr h

/-- Sorted insertion preserves sortedness (as `≤` between any two
entries in order). -/
theorem pairwise_insertPair (p : List Char × PyVal) :
    ∀ l : List (List Char × PyVal),
      List.Pairwise (fun x y => strLt y.1 x.1 = false) l →
      List.Pairwise (fun x y => strLt y.1 x.1 = false) (insertPair p l) := by
  intro l
  induction l with
  | nil => intro h; simp [insertPair]
  | cons q qs ih =>
    intro h
    obtain ⟨hq, hqs⟩ := List.pairwise_cons.mp h
    simp only [insertPair]
    by_cases hlt : strLt q.1 p.1
    · rw [if_pos hlt]
      refine List.pairwise_cons.mpr ⟨?_, ih hqs⟩
      intro z hz
      rcases mem_insertPair p qs z hz with h2 | h2
      · rw [h2]
        exact strLt_asymm _ _ hlt
      · exact hq z h2
    · rw [if_neg hlt]
      refine List.pairwise_cons.mpr ⟨?_, h⟩
      intro z hz
      rcases List.mem_cons.mp hz with h2 | h2
      · rw [h2]
        exact Bool.not_eq_true _ ▸ (Bool.eq_false_iff.mpr (by simpa using hlt))
      · exact strLe_trans z.1 p.1 q.1 (Bool.eq_false_iff.mpr (by simpa using hlt)) (hq z h2)

/-- Insertion sort produces a sorted list. -/
theorem pairwise_sortPairs :
    ∀ l : List (List Char × PyVal),
      List.Pairwise (fun x y => strLt y.1 x.1 = false) (sortPairs l) := by
  intro l
  induction l with
  | nil => simp [sortPairs]
  | cons p ps ih => exact pairwise_insertPair p (sortPairs ps) ih

/-- Insertion sort does not invent elements. -/
theorem mem_sortPairs :
    ∀ (l : List (List Char × PyVal)) (z : List Char × PyVal),
      z ∈ sortPairs l → z ∈ l := by
  intro l
  induction l with
  | nil => intro z hz; simp [sortPairs] at hz
  | cons p ps ih =>
    intro z hz
    rcases mem_insertPair p (sortPairs ps) z hz with h | h
    · rw [h]; exact List.mem_cons_self _ _
    · exact List.mem_cons_of_mem _ (ih z h)

/-- Deduplication keeps a sublist. -/
theorem dedupLast_sublist :
    ∀ l : List (List Char × PyVal), (dedupLast l).Sublist l := by
  intro l
  induction l using dedupLast.induct with
  | case1 => simp [dedupLast]
  | case2 p => simp [dedupLast]
  | case3 p q rest heq ih =>
    simp only [dedupLast, heq, if_pos rfl]
    exact ih.cons p
  | case4 p q rest hne ih =>
    simp only [dedupLast, if_neg hne]
    exact ih.cons₂ p

/-- A pairwise-sorted entry list rebuilds into a dict with sorted string
keys. -/
theorem dictKeysSorted_of_pairwise :
    ∀ ps : List (List Char × PyVal),
      List.Pairwise (fun x y => strLt y.1 x.1 = false) ps →
      dictKeysSorted (dictOfSorted ps) = true := by
  intro ps
  induction ps with
  | nil => intro h; rfl
  | cons p qs ih =>
    intro h
    obtain ⟨hp, hqs⟩ := List.pairwise_cons.mp h
    cases qs with
    | nil => rfl
    | cons q rest =>
      show dictKeysSorted
        (.cons (.str p.1) p.2 (.cons (.str q.1) q.2 (dictOfSorted rest))) = true
      have hle : strLt q.1 p.1 = false := hp q (List.mem_cons_self _ _)
      simp only [dictKeysSorted, hle, Bool.not_false, Bool.true_and]
      exact ih hqs

/-- Entry values with sorted trees rebuild into a dict with sorted
values. -/
theorem sortedD_dictOfSorted :
    ∀ ps : List (List Char × PyVal), (∀ p ∈ ps, SortedJson p.2) →
      SortedD (dictOfSorted ps) := by
  intro ps
  induction ps with
  | nil => intro h; exact SortedD.nil
  | cons p qs ih =>
    intro h
    exact SortedD.cons _ _ _ (h p (List.mem_cons_self _ _))
      (ih (fun q hq => h q (List.mem_cons_of_mem _ hq)))

mutual

/-- Canonicalization yields trees whose dict keys are sorted
everywhere. -/
theorem canon_sorted : ∀ (v r : PyVal), canon v = .ok r → SortedJson r
  | .str s, r, h => by
    simp only [canon, Except.ok.injEq] at h
    exact h ▸ SortedJson.str s
  | .bool b, r, h => by
    simp only [canon, Except.ok.injEq] at h
    exact h ▸ SortedJson.bool b
  | .none, r, h => by
    simp only [canon, Except.ok.injEq] at h
    exact h ▸ SortedJson.none
  | .list xs, r, h => by
    simp only [canon] at h
    cases hL : canonL xs with
    | error e => rw [hL] at h; cases h
    | ok ys =>
      rw [hL] at h
      simp only [Except.ok.injEq] at h
      exact h ▸ SortedJson.list ys (canonL_sorted xs ys hL)
  | .dict d, r, h => by
    simp only [canon] at h
    by_cases hk : keysHomog d
    · rw [if_pos hk] at h
      cases hD : canonD d with
      | error e => rw [hD] at h; cases h
      | ok ps =>
        rw [hD] at h
        simp only [Except.ok.injEq] at h
        subst h
        refine SortedJson.dict _ ?_ ?_
        · exact dictKeysSorted_of_pairwise _
            ((pairwise_sortPairs ps).sublist (dedupLast_sublist (sortPairs ps)))
        · refine sortedD_dictOfSorted _ ?_
          intro p hp
          exact canonD_sorted d ps hD p
            (mem_sortPairs ps p ((dedupLast_sublist (sortPairs ps)).subset hp))
    · rw [if_neg hk] at h
      cases h

/-- Canonicalization of a list yields sorted elements. -/
theorem canonL_sorted : ∀ (xs ys : PyList), canonL xs = .ok ys → SortedL ys
  | .nil, ys, h => by
    simp only [canonL, Except.ok.injEq] at h
    exact h ▸ SortedL.nil
  | .cons x xs, ys, h => by
    simp only [canonL] at h
    cases hx : canon x with
    | error e => rw [hx] at h; cases h
    | ok y =>
      rw [hx] at h
      cases hxs : canonL xs with
      | error e => rw [hxs] at h; cases h
      | ok ys2 =>
        rw [hxs] at h
        simp only [Except.ok.injEq] at h
        exact h ▸ SortedL.cons y ys2 (canon_sorted x y hx) (canonL_sorted xs ys2 hxs)

/-- Canonicalization of a dict yields entries with sorted values. -/
theorem canonD_sorted :
    ∀ (d : PyDict) (ps : List (List Char × PyVal)),
      canonD d = .ok ps → ∀ p ∈ ps, SortedJson p.2
  | .nil, ps, h => by
    simp only [canonD, Except.ok.injEq] at h
    intro p hp
    rw [← h] at hp
    simp at hp
  | .cons k v d, ps, h => by
    simp only [canonD] at h
    cases hk : keyJson k with
    | error e => rw [hk] at h; cases h
    | ok kj =>
      rw [hk] at h
      cases hv : canon v with
      | error e => rw [hv] at h; cases h
      | ok w =>
        rw [hv] at h
        cases hd : canonD d with
        | error e => rw [hd] at h; cases h
        | ok rest =>
          rw [hd] at h
          simp only [Except.ok.injEq] at h
          subst h
          intro p hp
          rcases List.mem_cons.mp hp with heq | hmem
          · rw [heq]
            exact canon_sorted v w hv
          · exact canonD_sorted d rest hd p hmem

end

/-- C7 (counterexample): line order is *not* irrelevant for arbitrary
distinct dotted keys — when one key is a dotted prefix of another
(`ab` and `ab.c`), one order raises `TypeError` (assigning through the
scalar stored at `ab`) while the other returns a tree. -/
theorem c7_counterexample :
    parse_config "ab=2\nab.c=1".data [] [] = .error .typeError ∧
    parse_config "ab.c=1\nab=2".data [] [] =
      .ok (.dict (.cons (.str "ab".data) (.str "2".data) .nil)) ∧
    (Except.error PyErr.typeError : Except PyErr PyVal) ≠
      .ok (.dict (.cons (.str "ab".data) (.str "2".data) .nil)) := by
  refine ⟨rfl, rfl, ?_⟩
  intro h
  cases h

/-- C7 (amended): parsing `a.b=1` and `a.c=2` in either order yields the
identical `Mapping {"a": {"b": "1", "c": "2"}}`, and every Mapping in any
tree returned by `parse_config` has its keys in sorted order; order
insensitivity does not extend to arbitrary distinct dotted keys (see the
counterexample with a key that is a dotted prefix of another). -/
theorem c7_sorted_canonical :
    parse_config "a.b=1\na.c=2".data [] [] =
      .ok (.dict (.cons (.str "a".data)
        (.dict (.cons (.str "b".data) (.str "1".data)
          (.cons (.str "c".data) (.str "2".data) .nil))) .nil)) ∧
    parse_config "a.c=2\na.b=1".data [] [] =
      .ok (.dict (.cons (.str "a".data)
        (.dict (.cons (.str "b".data) (.str "1".data)
          (.cons (.str "c".data) (.str "2".data) .nil))) .nil)) ∧
    (∀ (text : List Char) (dated vf : List (List Char)) (r : PyVal),
      parse_config text dated vf = .ok r → SortedJson r) := by
  refine ⟨rfl, rfl, ?_⟩
  intro text dated vf r h
  unfold parse_config at h
  dsimp only at h
  cases hloop : configLoop dated (localVersionFields text vf) (manifestVersionOf text)
      (.dict .nil) (splitLines text) with
  | error e => rw [hloop] at h; cases h
  | ok config =>
    rw [hloop] at h
    exact canon_sorted config r h

/-- C7 (witness): the sortedness of the concrete tree for the spec's own
example input. -/
theorem c7_witness :
    SortedJson (.dict (.cons (.str "a".data)
      (.dict (.cons (.str "b".data) (.str "1".data)
        (.cons (.str "c".data) (.str "2".data) .nil))) .nil)) :=
  c7_sorted_canonical.2.2 "a.b=1\na.c=2".data [] [] _ rfl
